import Mathlib

/-!
Formal model of the AYSTeamBuilder team-composition engine.

The definitions below are a shallow embedding of the Python sources:
* models.py — Player, Coach, Team records and the uniform-size enumeration;
* scoring.py — normalization context and weighted skill score;
* team_builder.py — team seeding and the assignment pipeline (namespace TB);
* teambuilder_single.py — the single-file variant of the pipeline, which
  additionally contains the sibling-grouping pass (namespace Single).

Modelling conventions:
* Python floats are modelled as rationals, so arithmetic is exact;
* Python None is modelled with Option, and the truthiness test that the code
  applies to optional strings is modelled by the function truthy below;
* Python dictionaries (keyed by player id) are modelled as lists of players
  whose ids are pairwise distinct, in insertion order;
* every random draw (random.shuffle, random.randint, random.choice and the
  random tie-break key in the single-file selector) is modelled by an
  explicitly threaded choice source, so theorems quantify over all draws;
* code that can raise (random.choice on an empty list, min of an empty list)
  returns Option, with none for the raising run.
-/

/-- Ordered uniform sizes, smallest to largest (models.py, UNIFORM_SIZES). -/
def UNIFORM_SIZES : List String :=
  ["Youth XXS", "Youth XS", "Youth S", "Youth M", "Youth L", "Youth XL",
   "Adult XS", "Adult S", "Adult M", "Adult L", "Adult XL", "Adult XXL"]

/-- Player record (models.py / teambuilder_single.py).  The raw evaluation
rating is modelled by the result of the numeric coercion the code applies to
it (none when the coercion fails), and experience likewise carries none for a
missing value. -/
structure Player where
  player_id : String
  name : String := ""
  age : Option ℚ := none
  experience : Option ℚ := none
  uniform_size : String := ""
  evaluation_score : Option ℚ := none
  skill_score : Option ℚ := none
  sponsor_id : Option String := none
  parent_name : Option String := none
  street_address : Option String := none
  siblings : List String := []
deriving DecidableEq

/-- Coach record (models.py / teambuilder_single.py). -/
structure Coach where
  coach_id : String
  full_name : String := ""
  role : String := ""
  volunteer_type_id : String := ""
  associated_player_id : Option String := none
  pair_id : Option String := none
deriving DecidableEq

/-- Team record (models.py / teambuilder_single.py). -/
structure Team where
  team_id : String
  name : String := ""
  head_coach : Coach
  assistant_coach : Option Coach := none
  players : List Player := []
  sponsor_id : Option String := none
  total_score : ℚ := 0
deriving DecidableEq

/-- Python truthiness of an optional string: None and the empty string are
falsy, any other string is truthy. -/
def truthy : Option String → Bool
  | none => false
  | some s => !(s == "")

/-! ### scoring.py -/

def AGE_WEIGHT : ℚ := 25/100

def EXPERIENCE_WEIGHT : ℚ := 35/100

def UNIFORM_SIZE_WEIGHT : ℚ := 15/100

def EVALUATION_WEIGHT : ℚ := 25/100

/-- A min/max pair for one feature; none models the absent bound. -/
structure MinMax where
  min : Option ℚ
  max : Option ℚ
deriving DecidableEq

/-- The per-run normalization context: one min/max pair per scored feature. -/
structure NormalizationContext where
  age : MinMax
  experience : MinMax
  uniform_size : MinMax
  evaluation_score : MinMax
deriving DecidableEq

/-- get_min_max helper inside build_normalization_context: min and max of the
collected values, or absent bounds when no value was collected. -/
def get_min_max (values : List ℚ) : MinMax :=
  { min := values.min?, max := values.max? }

/-- The uniform-size ordinal of a player: the index of its size string in
UNIFORM_SIZES, none when the string is not in the enumeration (the code
guards this with a membership test / a caught ValueError). -/
def uniform_ordinal (p : Player) : Option ℚ :=
  (List.findIdx? (fun s => s == p.uniform_size) UNIFORM_SIZES).map (fun i => (i : ℚ))

/-- build_normalization_context (scoring.py): collect each feature's valid
values over the whole population and take min/max per feature. -/
def build_normalization_context (players : List Player) : NormalizationContext :=
  { age := get_min_max (players.filterMap Player.age)
    experience := get_min_max (players.filterMap Player.experience)
    uniform_size := get_min_max (players.filterMap uniform_ordinal)
    evaluation_score := get_min_max (players.filterMap Player.evaluation_score) }

/-- The point normalization function (nested helper named norm in the source) inside calculate_player_skill_score:
absent value or absent bounds give none; equal bounds give the midpoint 1/2;
otherwise linear scaling into the unit interval. -/
def norm_val (val : Option ℚ) (mm : MinMax) : Option ℚ :=
  match val, mm.min, mm.max with
  | some v, some mn, some mx =>
      if mx = mn then some (1/2) else some ((v - mn) / (mx - mn))
  | _, _, _ => none

/-- The four (normalized value, weight) feature slots of
calculate_player_skill_score, in source order. -/
def feature_list (p : Player) (ctx : NormalizationContext) : List (Option ℚ × ℚ) :=
  [(norm_val p.age ctx.age, AGE_WEIGHT),
   (norm_val p.experience ctx.experience, EXPERIENCE_WEIGHT),
   (norm_val (uniform_ordinal p) ctx.uniform_size, UNIFORM_SIZE_WEIGHT),
   (norm_val p.evaluation_score ctx.evaluation_score, EVALUATION_WEIGHT)]

/-- The present features: those whose normalized value is not absent. -/
def present_features (p : Player) (ctx : NormalizationContext) : List (ℚ × ℚ) :=
  (feature_list p ctx).filterMap (fun vw => vw.1.map (fun v => (v, vw.2)))

/-- Rounding to 4 decimal places.  Python's round applies banker's rounding on
ties; round here rounds ties up.  The two agree except on exact ties, and the
facts proved below (range and 4-decimal granularity) hold for either. -/
def roundTo4 (q : ℚ) : ℚ := (round (q * 10000) : ℤ) / 10000

/-- calculate_player_skill_score (scoring.py): weighted average of the present
normalized features with the weights renormalized over the present ones,
rounded to 4 decimal places; zero when no feature is present. -/
def calculate_player_skill_score (p : Player) (ctx : NormalizationContext) : ℚ :=
  let present := present_features p ctx
  if present = [] then 0
  else roundTo4 ((present.map (fun vw => vw.1 * vw.2)).sum / (present.map Prod.snd).sum)

/-! ### team_builder.py: seeding -/

/-- Last whitespace-separated word of a full name, modelling the Python
expression full_name.split()[-1] (names play no role in any claim; an
all-whitespace name, where Python would raise IndexError, yields ""). -/
def last_word (s : String) : String :=
  ((s.splitOn " ").filter (fun w => !(w == ""))).getLastD ""

/-- Team shell built from a head/assistant pair. -/
def mk_pair_team (head assistant : Coach) : Team :=
  { team_id := head.coach_id ++ "_" ++ assistant.coach_id
    name := last_word head.full_name ++ "/" ++ last_word assistant.full_name
    head_coach := head
    assistant_coach := some assistant }

/-- Team shell for a head coach left without an assistant. -/
def mk_solo_team (head : Coach) : Team :=
  { team_id := head.coach_id ++ "_solo"
    name := last_word head.full_name
    head_coach := head
    assistant_coach := none }

/-- The scan over assistants inside pass 1 of seed_teams_with_coaches: the
first assistant whose id matches the head's requested pair id and whose own
pair id names the head back. -/
def find_reciprocal (head : Coach) (assistant_coaches : List Coach) : Option Coach :=
  assistant_coaches.find? (fun a =>
    some a.coach_id == head.pair_id && a.pair_id == some head.coach_id)

/-- Pass 1 of seed_teams_with_coaches: for each head with a truthy pair id, in
order, form a team with the first mutually consenting assistant; returns the
teams and the used head ids and used assistant ids. -/
def reciprocal_pass (assistant_coaches : List Coach) :
    List Coach → List Team × List String × List String
  | [] => ([], [], [])
  | head :: hs =>
    let s := reciprocal_pass assistant_coaches hs
    if truthy head.pair_id then
      match find_reciprocal head assistant_coaches with
      | some assistant =>
          (mk_pair_team head assistant :: s.1,
           head.coach_id :: s.2.1,
           assistant.coach_id :: s.2.2)
      | none => s
    else s

/-- The index of the fallback assistant chosen for a head from the remaining
pool: prefer one with an associated player when the head has none, else prefer
one without, else take the first remaining one. -/
def pick_fallback_index (head : Coach) (avail : List Coach) : ℕ :=
  if !(truthy head.associated_player_id) then
    (avail.findIdx? (fun a => truthy a.associated_player_id)).getD 0
  else
    (avail.findIdx? (fun a => !(truthy a.associated_player_id))).getD 0

/-- Pass 2 of seed_teams_with_coaches: each remaining head, in order, takes
the chosen assistant out of the remaining pool, or forms a solo team when the
pool is empty. -/
def fallback_pass : List Coach → List Coach → List Team
  | [], _ => []
  | head :: hs, avail =>
    if avail.isEmpty then mk_solo_team head :: fallback_pass hs avail
    else
      let i := pick_fallback_index head avail
      match avail.get? i with
      | some assistant => mk_pair_team head assistant :: fallback_pass hs (avail.eraseIdx i)
      | none => mk_solo_team head :: fallback_pass hs avail

/-- seed_teams_with_coaches (team_builder.py / teambuilder_single.py):
reciprocated pairs first, then fallback pairing of the remaining heads against
the shuffled remaining assistants.  The shuffle argument models
random.shuffle; theorems assume only that it permutes its input. -/
def seed_teams_with_coaches (head_coaches assistant_coaches : List Coach)
    (shuffle : List Coach → List Coach) : List Team :=
  let s := reciprocal_pass assistant_coaches head_coaches
  let unpaired_heads := head_coaches.filter (fun h => !(s.2.1.contains h.coach_id))
  let available_assistants :=
    assistant_coaches.filter (fun a => !(s.2.2.contains a.coach_id))
  s.1 ++ fallback_pass unpaired_heads (shuffle available_assistants)

/-! ### team_builder.py: player addition and the shared pipeline stages -/

/-- add_player_to_team: append the player, overwrite the sponsor id when the
player carries a truthy one, and add a present skill score to the running
total. -/
def add_player_to_team (p : Player) (t : Team) : Team :=
  let t1 : Team := { t with players := t.players ++ [p] }
  let t2 : Team :=
    if truthy p.sponsor_id then { t1 with sponsor_id := p.sponsor_id } else t1
  match p.skill_score with
  | some s => { t2 with total_score := t2.total_score + s }
  | none => t2

/-- One coach slot inside assign_coach_associated_players: when the coach
exists and names an associated player present in the player map and not yet
assigned, add that player to the team and mark it assigned. -/
def assign_one_coach (players : List Player) (acc : Team × List String)
    (c : Option Coach) : Team × List String :=
  match c with
  | none => acc
  | some coach =>
    if truthy coach.associated_player_id then
      match players.find? (fun p => some p.player_id == coach.associated_player_id) with
      | some p =>
          if p.player_id ∈ acc.2 then acc
          else (add_player_to_team p acc.1, acc.2 ++ [p.player_id])
      | none => acc
    else acc

/-- assign_coach_associated_players: for every team, in order, process the
head-coach slot then the assistant slot; returns the updated teams and the
grown assigned set (modelled as a list of ids). -/
def assign_coach_associated_players (teams : List Team) (players : List Player)
    (assigned : List String) : List Team × List String :=
  match teams with
  | [] => ([], assigned)
  | t :: rest =>
    let r := assign_one_coach players (assign_one_coach players (t, assigned) (some t.head_coach)) t.assistant_coach
    let s := assign_coach_associated_players rest players r.2
    (r.1 :: s.1, s.2)

/-- The while loop of fill_teams_to_minimum for one team, structured over the
fuel bound below: while the team is below the minimum and unassigned players
remain, remove the player at the index drawn by the choice source
(random.randint) and add it to the team; k counts the draws made so far.
Each iteration removes one player, so the loop runs at most as many times as
there are unassigned players; the fuel makes that bound structural. -/
def fill_one_team_go (min_team_size : ℕ) :
    ℕ → Team → List Player → (ℕ → ℕ) → ℕ → Team × List Player × ℕ
  | 0, t, unassigned, _, k => (t, unassigned, k)
  | fuel + 1, t, unassigned, rand, k =>
    if h : t.players.length < min_team_size ∧ 0 < unassigned.length then
      let idx := rand k % unassigned.length
      fill_one_team_go min_team_size fuel
        (add_player_to_team (unassigned.get ⟨idx, Nat.mod_lt _ h.2⟩) t)
        (unassigned.eraseIdx idx) rand (k + 1)
    else (t, unassigned, k)

/-- The while loop of fill_teams_to_minimum for one team, started with enough
fuel for every possible iteration (when the fuel runs out the pool is empty
and the loop condition is false anyway, so the fuel is not observable). -/
def fill_one_team (min_team_size : ℕ) (t : Team) (unassigned : List Player)
    (rand : ℕ → ℕ) (k : ℕ) : Team × List Player × ℕ :=
  fill_one_team_go min_team_size unassigned.length t unassigned rand k

/-- fill_teams_to_minimum: fill each team, in order, up to the minimum size
from the shrinking unassigned pool.  The minimum is a parameter here: the
package passes 2 and the single-file variant its MIN_TEAM_SIZE constant 3. -/
def fill_teams_to_minimum (teams : List Team) (unassigned : List Player)
    (rand : ℕ → ℕ) (k : ℕ) (min_team_size : ℕ) : List Team × List Player × ℕ :=
  match teams with
  | [] => ([], unassigned, k)
  | t :: rest =>
    let r := fill_one_team min_team_size t unassigned rand k
    let s := fill_teams_to_minimum rest r.2.1 rand r.2.2 min_team_size
    (r.1 :: s.1, s.2)

/-- Insertion step of the stable descending sort by skill score: the new
player goes in front of the first already-placed player whose key is not
larger (an earlier-input player always precedes later equal-key ones). -/
def insert_desc (p : Player) : List Player → List Player
  | [] => [p]
  | q :: rest =>
    if (q.skill_score.getD 0 : ℚ) ≤ p.skill_score.getD 0 then p :: q :: rest
    else q :: insert_desc p rest

/-- Python's unassigned.sort(key=skill score, reverse=True) is a stable
descending sort, and a stable sort's output order is unique; this structural
insertion sort computes exactly that order (getattr(p, 'skill_score', 0) is
modelled as the score with 0 for an absent one; every pipeline run scores all
players before assignment). -/
def sort_players_desc : List Player → List Player
  | [] => []
  | p :: rest => insert_desc p (sort_players_desc rest)

/-! ### team_builder.py (package variant): best-team selection and pipeline -/

namespace TB

/-- Loop state of find_best_team_for_player: current best score, best size,
and the indices of the candidate teams collected so far. -/
structure SelState where
  best_score : Option ℚ
  best_size : Option ℕ
  candidates : List ℕ
deriving DecidableEq

/-- Python comparison score < best_score against the stored optional best. -/
def lt_opt (q : ℚ) : Option ℚ → Bool
  | none => false
  | some b => q < b

/-- Python comparison size < best_size against the stored optional best. -/
def lt_opt_nat (n : ℕ) : Option ℕ → Bool
  | none => false
  | some b => n < b

/-- One loop iteration of find_best_team_for_player (team_builder.py) over an
(index, team) pair: skip sponsor-committed teams for sponsored players,
restart the candidate list on a strictly better (score, size) key, append on
an exact tie. -/
def sel_step (p : Player) (acc : SelState) (it : ℕ × Team) : SelState :=
  if truthy p.sponsor_id && truthy it.2.sponsor_id then acc
  else
    let score := it.2.total_score
    let size := it.2.players.length
    if acc.best_score = none ∨ lt_opt score acc.best_score = true ∨
       (acc.best_score = some score ∧ acc.best_size ≠ none ∧
        lt_opt_nat size acc.best_size = true) then
      { best_score := some score, best_size := some size, candidates := [it.1] }
    else if acc.best_score = some score ∧ acc.best_size = some size then
      { acc with candidates := acc.candidates ++ [it.1] }
    else acc

/-- find_best_team_for_player (team_builder.py): among teams not excluded by
the sponsor constraint, collect the indices attaining the lexicographically
least (total score, member count); when no team qualifies fall back to all
teams; pick from the pool by the random.choice draw r.  Returns none exactly
when the pool is empty (no teams at all), where Python's random.choice
raises IndexError. -/
def find_best_team_for_player (p : Player) (teams : List Team) (r : ℕ) : Option ℕ :=
  let st := teams.enum.foldl (sel_step p) ⟨none, none, []⟩
  let candidates := if st.candidates = [] then List.range teams.length else st.candidates
  candidates.get? (r % candidates.length)

/-- The loop of assign_remaining_players_by_skill: add each player in order to
the team selected for it; none when the selector fails (no teams). -/
def assign_loop (teams : List Team) (l : List Player) (rand : ℕ → ℕ) (k : ℕ) :
    Option (List Team) :=
  match l with
  | [] => some teams
  | p :: rest =>
    match find_best_team_for_player p teams (rand k) with
    | none => none
    | some i =>
      match teams.get? i with
      | some t => assign_loop (teams.set i (add_player_to_team p t)) rest rand (k + 1)
      | none => none

/-- assign_remaining_players_by_skill (team_builder.py): sort the unassigned
players by skill score descending (Python's stable list sort with
reverse=True, computed by sort_players_desc) and greedily add each to its
selected team. -/
def assign_remaining_players_by_skill (teams : List Team) (unassigned : List Player)
    (rand : ℕ → ℕ) (k : ℕ) : Option (List Team) :=
  assign_loop teams (sort_players_desc unassigned) rand k

/-- assign_players_to_teams (team_builder.py): coach-associated pass, fill to
the hardcoded minimum of 2 (the target_team_size argument is accepted but not
used by the code), then greedy assignment by descending skill. -/
def assign_players_to_teams (teams : List Team) (players : List Player)
    (target_team_size : ℕ) (rand : ℕ → ℕ) : Option (List Team) :=
  let s := assign_coach_associated_players teams players []
  let unassigned := players.filter (fun p => p.player_id ∉ s.2)
  let f := fill_teams_to_minimum s.1 unassigned rand 0 2
  assign_remaining_players_by_skill f.1 f.2.1 rand f.2.2

end TB

/-! ### teambuilder_single.py: family keys, sibling derivation -/

/-- The family key of a player: its (parent name, street address) pair. -/
def familyKey (p : Player) : Option String × Option String :=
  (p.parent_name, p.street_address)

/-- The ids of all players sharing a family key, in player order, as collected
by the family_groups table of parse_players_csv_reader.  Blank (absent) keys
are included, exactly as in the source. -/
def family_ids (players : List Player) (key : Option String × Option String) :
    List String :=
  (players.filter (fun q => familyKey q = key)).map Player.player_id

/-- The sibling derivation at the end of parse_players_csv_reader: all other
ids in the player's family group. -/
def siblings_list (players : List Player) (p : Player) : List String :=
  (family_ids players (familyKey p)).filter (fun pid => !(pid == p.player_id))

/-- The players with their sibling fields populated, as
parse_players_csv_reader leaves them. -/
def compute_siblings (players : List Player) : List Player :=
  players.map (fun p => { p with siblings := siblings_list players p })

/-! ### teambuilder_single.py: selector, sibling pass and pipeline -/

namespace Single

/-- MIN_TEAM_SIZE constant of teambuilder_single.py. -/
def MIN_TEAM_SIZE : ℕ := 3

/-- Lexicographic strict comparison of (total score, member count) keys. -/
def key_lt (a b : ℚ × ℕ) : Bool :=
  a.1 < b.1 || (a.1 = b.1 && a.2 < b.2)

/-- The tuple sort key of the single-file selector, without its random third
component. -/
def team_key (t : Team) : ℚ × ℕ := (t.total_score, t.players.length)

/-- find_best_team_for_player (teambuilder_single.py):
min over teams of the key (total score, member count, random.random()).  The
random third component makes Python pick among the teams tied on the first two
components; the draw r models that pick.  No sponsor handling appears in this
variant.  none exactly when teams is empty, where Python's min raises
ValueError. -/
def find_best_team_for_player (p : Player) (teams : List Team) (r : ℕ) : Option ℕ :=
  match teams with
  | [] => none
  | t0 :: rest =>
    let best := rest.foldl
      (fun a t => if key_lt (team_key t) a then team_key t else a) (team_key t0)
    let cands := ((t0 :: rest).enum.filter (fun it => team_key it.2 = best)).map Prod.fst
    cands.get? (r % cands.length)

/-- Insert a player id into the family-group table at its key, preserving
first-seen key order (Python dict insertion order; the group itself is a set
in the source, whose iteration order is arbitrary — the model keeps insertion
order, one admissible order). -/
def add_to_group (groups : List ((Option String × Option String) × List String))
    (key : Option String × Option String) (pid : String) :
    List ((Option String × Option String) × List String) :=
  match groups with
  | [] => [(key, [pid])]
  | g :: gs => if g.1 = key then (g.1, g.2 ++ [pid]) :: gs else g :: add_to_group gs key pid

/-- The family-group table of assign_sibling_groups_to_teams: every player
with a non-empty sibling list is recorded under its family key. -/
def family_groups (players : List Player) :
    List ((Option String × Option String) × List String) :=
  players.foldl (fun groups p =>
    if p.siblings.isEmpty then groups
    else add_to_group groups (familyKey p) p.player_id) []

/-- The groups of 2 or more recorded members. -/
def sibling_groups (players : List Player) : List (List String) :=
  ((family_groups players).filter (fun g => 1 < g.2.length)).map Prod.snd

/-- Add every listed player to the team at index i, marking each assigned. -/
def add_group_to_team (gps : List Player) (teams : List Team) (i : ℕ)
    (assigned : List String) : List Team × List String :=
  gps.foldl (fun acc p =>
    match acc.1.get? i with
    | some t => (acc.1.set i (add_player_to_team p t), acc.2 ++ [p.player_id])
    | none => acc) (teams, assigned)

/-- The still-unassigned members of a group, as player records. -/
def group_players (players : List Player) (assigned : List String)
    (g : List String) : List Player :=
  (g.filter (fun pid => pid ∉ assigned)).filterMap
    (fun pid => players.find? (fun p => p.player_id == pid))

/-- The loop of assign_sibling_groups_to_teams over the computed groups: for
each group, collect its still-unassigned members, pick the destination team
with the selector using the first of them as representative, and add them all
to that single team. -/
def sibling_groups_loop (players : List Player) (rand : ℕ → ℕ) :
    List (List String) → List Team → List String → ℕ →
    Option (List Team × List String × ℕ)
  | [], teams, assigned, k => some (teams, assigned, k)
  | g :: gs, teams, assigned, k =>
    match group_players players assigned g with
    | [] => sibling_groups_loop players rand gs teams assigned k
    | p0 :: rest0 =>
      match find_best_team_for_player p0 teams (rand k) with
      | none => none
      | some i =>
        let r := add_group_to_team (p0 :: rest0) teams i assigned
        sibling_groups_loop players rand gs r.1 r.2 (k + 1)

/-- assign_sibling_groups_to_teams (teambuilder_single.py): for each family
group of 2 or more members, place all of its still-unassigned members on one
selected team.  none models the ValueError of min over an empty team list. -/
def assign_sibling_groups_to_teams (teams : List Team) (players : List Player)
    (assigned : List String) (rand : ℕ → ℕ) (k : ℕ) :
    Option (List Team × List String × ℕ) :=
  sibling_groups_loop players rand (sibling_groups players) teams assigned k

/-- The loop of the single-file assign_remaining_players_by_skill. -/
def assign_loop (teams : List Team) (l : List Player) (rand : ℕ → ℕ) (k : ℕ) :
    Option (List Team) :=
  match l with
  | [] => some teams
  | p :: rest =>
    match find_best_team_for_player p teams (rand k) with
    | none => none
    | some i =>
      match teams.get? i with
      | some t => assign_loop (teams.set i (add_player_to_team p t)) rest rand (k + 1)
      | none => none

/-- assign_remaining_players_by_skill (teambuilder_single.py). -/
def assign_remaining_players_by_skill (teams : List Team) (unassigned : List Player)
    (rand : ℕ → ℕ) (k : ℕ) : Option (List Team) :=
  assign_loop teams (sort_players_desc unassigned) rand k

/-- assign_players_to_teams (teambuilder_single.py): coach-associated pass,
sibling-group pass, fill to the constant MIN_TEAM_SIZE = 3 (the team_size
argument is accepted but not used by the code), then greedy assignment by
descending skill. -/
def assign_players_to_teams (teams : List Team) (players : List Player)
    (team_size : ℕ) (rand : ℕ → ℕ) : Option (List Team) :=
  let s := assign_coach_associated_players teams players []
  match assign_sibling_groups_to_teams s.1 players s.2 rand 0 with
  | none => none
  | some (ts, assigned, k) =>
    let unassigned := players.filter (fun p => p.player_id ∉ assigned)
    let f := fill_teams_to_minimum ts unassigned rand k MIN_TEAM_SIZE
    assign_remaining_players_by_skill f.1 f.2.1 rand f.2.2

end Single

/-- Sample player used in concrete witness instantiations. -/
def samplePlayerA : Player :=
  { player_id := "P1", age := some 10, experience := some 2,
    uniform_size := "Youth M", evaluation_score := some 500 }

/-- Sample player with every feature absent. -/
def samplePlayerBlank : Player :=
  { player_id := "P2" }

/-- Sample player with no parent or address data. -/
def blankPlayerA : Player :=
  { player_id := "B1" }

/-- Second sample player with no parent or address data. -/
def blankPlayerB : Player :=
  { player_id := "B2" }

/-- Sample family member. -/
def famPlayerA : Player :=
  { player_id := "F1", parent_name := some "Smith", street_address := some "123 Main St" }

/-- Second sample family member with the same key. -/
def famPlayerB : Player :=
  { player_id := "F2", parent_name := some "Smith", street_address := some "123 Main St" }

/-! ### Derived notions used by the verification -/

/-- Sequential addition of a list of players to a team. -/
def addList (t : Team) (l : List Player) : Team :=
  l.foldl (fun acc p => add_player_to_team p acc) t

/-- The team t' is reachable from t by a sequence of player additions; every
mutation a pipeline stage applies to a team has this form. -/
def AddsTo (t t' : Team) : Prop := ∃ l : List Player, t' = addList t l

/-- The skill-score contribution of a player as add_player_to_team counts it:
the score when present, zero when absent. -/
def scoreOf (p : Player) : ℚ := p.skill_score.getD 0

/-- Sum of the score contributions of a list of players. -/
def sumScores (l : List Player) : ℚ := (l.map scoreOf).sum

/-- The running-total invariant: a team's total score equals the sum of its
members' skill scores. -/
def score_inv (t : Team) : Prop := t.total_score = sumScores t.players

/-- All player ids assigned across a team list, with multiplicity. -/
def teamPlayerIds (ts : List Team) : List String :=
  (ts.map (fun t => t.players.map Player.player_id)).join

/-- The ids of a list of players. -/
def idsOf (ps : List Player) : List String := ps.map Player.player_id

/-- Sample sponsored player carrying sponsor SA. -/
def sponsoredPlayerA : Player :=
  { player_id := "PA", sponsor_id := some "SA" }

/-- Sample sponsored player carrying sponsor SB. -/
def sponsoredPlayerB : Player :=
  { player_id := "PB", sponsor_id := some "SB" }

/-- Head coach tied to sponsored player PA. -/
def coachHeadA : Coach :=
  { coach_id := "CH", associated_player_id := some "PA" }

/-- Assistant coach tied to sponsored player PB. -/
def coachAsstB : Coach :=
  { coach_id := "CA", associated_player_id := some "PB" }

/-- Team coached by the two coaches above, no players yet. -/
def teamAB : Team :=
  { team_id := "T1", head_coach := coachHeadA, assistant_coach := some coachAsstB }

/-- Sample plain coach 1. -/
def plainCoach1 : Coach :=
  { coach_id := "C1" }

/-- Sample plain coach 2. -/
def plainCoach2 : Coach :=
  { coach_id := "C2" }

/-- Sample empty team 1. -/
def teamC1 : Team :=
  { team_id := "TC1", head_coach := plainCoach1 }

/-- Sample empty team 2. -/
def teamC2 : Team :=
  { team_id := "TC2", head_coach := plainCoach2 }

/-- Sample plain player 1. -/
def plainPlayer1 : Player :=
  { player_id := "Q1" }

/-- Sample plain player 2. -/
def plainPlayer2 : Player :=
  { player_id := "Q2" }

/-- A team is eligible for a player in the package selector when the loop does
not skip it: not both the player and the team carry a truthy sponsor id. -/
def TB.eligible (p : Player) (t : Team) : Prop :=
  ¬(truthy p.sponsor_id = true ∧ truthy t.sponsor_id = true)

/-- Loop invariant of the package selector fold over the processed prefix:
either nothing eligible has been seen and the state is still the initial one,
or the state records the least (score, size) key over the eligible prefix and
the candidate indices attaining it. -/
def TB.sel_inv (p : Player) (done : List (ℕ × Team)) (st : TB.SelState) : Prop :=
  (st = ⟨none, none, []⟩ ∧ ∀ it ∈ done, ¬TB.eligible p it.2) ∨
  (∃ bs bz, st.best_score = some bs ∧ st.best_size = some bz ∧
    st.candidates ≠ [] ∧
    (∀ i ∈ st.candidates, ∃ it ∈ done, it.1 = i ∧ TB.eligible p it.2 ∧
      it.2.total_score = bs ∧ it.2.players.length = bz) ∧
    (∀ it ∈ done, TB.eligible p it.2 →
      bs < it.2.total_score ∨ (bs = it.2.total_score ∧ bz ≤ it.2.players.length)))

/-- Sample sponsored player for selector scenarios. -/
def sponsPlayerS1 : Player :=
  { player_id := "PS", sponsor_id := some "S1" }

/-- Sponsor-committed team with the higher running score. -/
def sponsTeamHigh : Team :=
  { team_id := "TH", head_coach := plainCoach1, sponsor_id := some "S2",
    total_score := 5 }

/-- Sponsor-committed team with the lower running score. -/
def sponsTeamLow : Team :=
  { team_id := "TL", head_coach := plainCoach2, sponsor_id := some "S3",
    total_score := 2 }

/-- Unsponsored team with a yet higher running score. -/
def freeTeamX : Team :=
  { team_id := "TF", head_coach := plainCoach2, total_score := 7 }

/-- Sample head coach requesting assistant A1. -/
def recipHead : Coach :=
  { coach_id := "H1", full_name := "Alice Head", role := "Head Coach",
    pair_id := some "A1" }

/-- Sample assistant coach reciprocating head H1. -/
def recipAsst : Coach :=
  { coach_id := "A1", full_name := "Bob Asst", role := "Assistant Coach",
    pair_id := some "H1" }

/-- Sample scored player 1. -/
def scoredPlayer1 : Player :=
  { player_id := "W1", skill_score := some (1/2) }

/-- Sample scored player 2. -/
def scoredPlayer2 : Player :=
  { player_id := "W2", skill_score := some (3/4) }

/-- First of three sample siblings sharing one family key, sibling fields as
the parser computes them. -/
def c6Sib1 : Player :=
  { player_id := "S1", parent_name := some "Jones", street_address := some "5 Elm",
    siblings := ["S2", "S3"] }

/-- Second sample sibling. -/
def c6Sib2 : Player :=
  { player_id := "S2", parent_name := some "Jones", street_address := some "5 Elm",
    siblings := ["S1", "S3"] }

/-- Third sample sibling. -/
def c6Sib3 : Player :=
  { player_id := "S3", parent_name := some "Jones", street_address := some "5 Elm",
    siblings := ["S1", "S2"] }

/-- First member of a sibling pair fed to the package pipeline. -/
def c6SibA : Player :=
  { player_id := "SA", parent_name := some "Jones", street_address := some "5 Elm",
    siblings := ["SB"] }

/-- Second member of the sibling pair. -/
def c6SibB : Player :=
  { player_id := "SB", parent_name := some "Jones", street_address := some "5 Elm",
    siblings := ["SA"] }

/-- Unrelated filler player 1. -/
def c6FillX : Player := { player_id := "X1" }

/-- Unrelated filler player 2. -/
def c6FillY : Player := { player_id := "X2" }

/-- A choice source whose second draw picks index 1, steering the package fill
pass to separate the sibling pair. -/
def c6rand : ℕ → ℕ := fun k => if k = 1 then 1 else 0

/-! ### Lemmas and claim theorems -/

theorem foldl_min_le_init (l : List ℚ) (i : ℚ) : l.foldl min i ≤ i := by
  induction l generalizing i with
  | nil => exact le_refl i
  | cons x xs ih => exact le_trans (ih (min i x)) (min_le_left i x)

theorem foldl_min_le_mem (l : List ℚ) (i a : ℚ) (h : a ∈ l) : l.foldl min i ≤ a := by
  induction l generalizing i with
  | nil => cases h
  | cons x xs ih =>
    rcases List.mem_cons.mp h with rfl | hx
    · exact le_trans (foldl_min_le_init xs (min i a)) (min_le_right i a)
    · exact ih (min i x) hx

theorem init_le_foldl_max (l : List ℚ) (i : ℚ) : i ≤ l.foldl max i := by
  induction l generalizing i with
  | nil => exact le_refl i
  | cons x xs ih => exact le_trans (le_max_left i x) (ih (max i x))

theorem mem_le_foldl_max (l : List ℚ) (i a : ℚ) (h : a ∈ l) : a ≤ l.foldl max i := by
  induction l generalizing i with
  | nil => cases h
  | cons x xs ih =>
    rcases List.mem_cons.mp h with rfl | hx
    · exact le_trans (le_max_right i a) (init_le_foldl_max xs (max i a))
    · exact ih (max i x) hx

theorem min?_le_of_mem {l : List ℚ} {a : ℚ} (h : a ∈ l) :
    ∃ mn, l.min? = some mn ∧ mn ≤ a := by
  cases l with
  | nil => cases h
  | cons x xs =>
    refine ⟨xs.foldl min x, rfl, ?_⟩
    rcases List.mem_cons.mp h with rfl | hx
    · exact foldl_min_le_init xs a
    · exact foldl_min_le_mem xs x a hx

theorem le_max?_of_mem {l : List ℚ} {a : ℚ} (h : a ∈ l) :
    ∃ mx, l.max? = some mx ∧ a ≤ mx := by
  cases l with
  | nil => cases h
  | cons x xs =>
    refine ⟨xs.foldl max x, rfl, ?_⟩
    rcases List.mem_cons.mp h with rfl | hx
    · exact init_le_foldl_max xs a
    · exact mem_le_foldl_max xs x a hx

theorem norm_of_mem {v : ℚ} {values : List ℚ} (h : v ∈ values) :
    ∃ r, norm_val (some v) (get_min_max values) = some r ∧ 0 ≤ r ∧ r ≤ 1 := by
  obtain ⟨mn, hmn, hmnle⟩ := min?_le_of_mem h
  obtain ⟨mx, hmx, hlemx⟩ := le_max?_of_mem h
  have hctx : get_min_max values = { min := some mn, max := some mx } := by
    rw [get_min_max, hmn, hmx]
  rw [hctx]
  by_cases heq : mx = mn
  · refine ⟨1/2, by simp [norm_val, heq], by norm_num, by norm_num⟩
  · have hlt : mn < mx := lt_of_le_of_ne (le_trans hmnle hlemx) (Ne.symm heq)
    refine ⟨(v - mn) / (mx - mn), by simp [norm_val, heq], ?_, ?_⟩
    · exact div_nonneg (by linarith) (by linarith)
    · rw [div_le_one (by linarith)]; linarith

theorem weighted_sum_bounds (l : List (ℚ × ℚ))
    (h : ∀ vw ∈ l, 0 ≤ vw.1 ∧ vw.1 ≤ 1 ∧ 0 < vw.2) :
    0 ≤ (l.map (fun vw => vw.1 * vw.2)).sum ∧
    (l.map (fun vw => vw.1 * vw.2)).sum ≤ (l.map Prod.snd).sum ∧
    0 ≤ (l.map Prod.snd).sum := by
  induction l with
  | nil => simp
  | cons x xs ih =>
    obtain ⟨h0, h1, hw⟩ := h x (List.mem_cons_self x xs)
    obtain ⟨i0, i1, i2⟩ := ih (fun vw hvw => h vw (List.mem_cons_of_mem x hvw))
    refine ⟨?_, ?_, ?_⟩ <;> simp only [List.map_cons, List.sum_cons]
    · nlinarith
    · nlinarith
    · nlinarith

theorem roundTo4_bounds {q : ℚ} (h0 : 0 ≤ q) (h1 : q ≤ 1) :
    0 ≤ roundTo4 q ∧ roundTo4 q ≤ 1 := by
  have hlo : (0 : ℤ) ≤ round (q * 10000) := by
    rw [round_eq]
    have h : (0 : ℤ) = ⌊(0 : ℚ) + 1/2⌋ := by norm_num
    rw [h]
    exact Int.floor_le_floor (by linarith)
  have hhi : round (q * 10000) ≤ (10000 : ℤ) := by
    rw [round_eq]
    have h : ⌊(10000 : ℚ) + 1/2⌋ = (10000 : ℤ) := by norm_num
    rw [← h]
    exact Int.floor_le_floor (by linarith)
  constructor
  · unfold roundTo4
    apply div_nonneg
    · exact_mod_cast hlo
    · norm_num
  · unfold roundTo4
    rw [div_le_one (by norm_num : (0:ℚ) < 10000)]
    exact_mod_cast hhi

theorem norm_val_none (mm : MinMax) : norm_val none mm = none := rfl

theorem norm_val_bounds_of_mem {v r : ℚ} {values : List ℚ} (hv : v ∈ values)
    (h : norm_val (some v) (get_min_max values) = some r) : 0 ≤ r ∧ r ≤ 1 := by
  obtain ⟨r', hr', h0, h1⟩ := norm_of_mem hv
  rw [h] at hr'
  cases hr'
  exact ⟨h0, h1⟩

theorem sum_snd_pos (l : List (ℚ × ℚ)) (hne : l ≠ [])
    (h : ∀ vw ∈ l, 0 < vw.2) : 0 < (l.map Prod.snd).sum := by
  cases l with
  | nil => cases hne rfl
  | cons x xs =>
    simp only [List.map_cons, List.sum_cons]
    have hx := h x (List.mem_cons_self x xs)
    have hxs : 0 ≤ (xs.map Prod.snd).sum := by
      apply List.sum_nonneg
      intro a ha
      obtain ⟨vw, hvw, rfl⟩ := List.mem_map.mp ha
      exact le_of_lt (h vw (List.mem_cons_of_mem x hvw))
    linarith

theorem calculate_player_skill_score_eq (p : Player) (ctx : NormalizationContext) :
    calculate_player_skill_score p ctx =
      if present_features p ctx = [] then 0
      else roundTo4 (((present_features p ctx).map (fun vw => vw.1 * vw.2)).sum /
        ((present_features p ctx).map Prod.snd).sum) := rfl

theorem present_features_mem_bounds (players : List Player) (p : Player)
    (hp : p ∈ players) :
    ∀ vw ∈ present_features p (build_normalization_context players),
      0 ≤ vw.1 ∧ vw.1 ≤ 1 ∧ 0 < vw.2 := by
  intro vw hvw
  obtain ⟨ow, how, heq⟩ := List.mem_filterMap.mp hvw
  cases hov : ow.1 with
  | none => rw [hov] at heq; simp at heq
  | some v =>
    rw [hov] at heq
    simp only [Option.map_some'] at heq
    cases heq
    have hcases : ow = (norm_val p.age (build_normalization_context players).age, AGE_WEIGHT) ∨
        ow = (norm_val p.experience (build_normalization_context players).experience, EXPERIENCE_WEIGHT) ∨
        ow = (norm_val (uniform_ordinal p) (build_normalization_context players).uniform_size, UNIFORM_SIZE_WEIGHT) ∨
        ow = (norm_val p.evaluation_score (build_normalization_context players).evaluation_score, EVALUATION_WEIGHT) := by
      simpa [feature_list] using how
    rcases hcases with h | h | h | h
    · have hfst : norm_val p.age (build_normalization_context players).age = some v := by
        rw [← hov, h]
      cases hage : p.age with
      | none => rw [hage, norm_val_none] at hfst; cases hfst
      | some a =>
        rw [hage] at hfst
        have hmem : a ∈ players.filterMap Player.age :=
          List.mem_filterMap.mpr ⟨p, hp, by rw [hage]⟩
        have hb := norm_val_bounds_of_mem hmem (by
          simpa [build_normalization_context] using hfst)
        refine ⟨by simpa [h] using hb.1, by simpa [h] using hb.2, ?_⟩
        rw [h]
        norm_num [AGE_WEIGHT]
    · have hfst : norm_val p.experience (build_normalization_context players).experience = some v := by
        rw [← hov, h]
      cases hexp : p.experience with
      | none => rw [hexp, norm_val_none] at hfst; cases hfst
      | some a =>
        rw [hexp] at hfst
        have hmem : a ∈ players.filterMap Player.experience :=
          List.mem_filterMap.mpr ⟨p, hp, by rw [hexp]⟩
        have hb := norm_val_bounds_of_mem hmem (by
          simpa [build_normalization_context] using hfst)
        refine ⟨by simpa [h] using hb.1, by simpa [h] using hb.2, ?_⟩
        rw [h]
        norm_num [EXPERIENCE_WEIGHT]
    · have hfst : norm_val (uniform_ordinal p) (build_normalization_context players).uniform_size = some v := by
        rw [← hov, h]
      cases huni : uniform_ordinal p with
      | none => rw [huni, norm_val_none] at hfst; cases hfst
      | some a =>
        rw [huni] at hfst
        have hmem : a ∈ players.filterMap uniform_ordinal :=
          List.mem_filterMap.mpr ⟨p, hp, by rw [huni]⟩
        have hb := norm_val_bounds_of_mem hmem (by
          simpa [build_normalization_context] using hfst)
        refine ⟨by simpa [h] using hb.1, by simpa [h] using hb.2, ?_⟩
        rw [h]
        norm_num [UNIFORM_SIZE_WEIGHT]
    · have hfst : norm_val p.evaluation_score (build_normalization_context players).evaluation_score = some v := by
        rw [← hov, h]
      cases heva : p.evaluation_score with
      | none => rw [heva, norm_val_none] at hfst; cases hfst
      | some a =>
        rw [heva] at hfst
        have hmem : a ∈ players.filterMap Player.evaluation_score :=
          List.mem_filterMap.mpr ⟨p, hp, by rw [heva]⟩
        have hb := norm_val_bounds_of_mem hmem (by
          simpa [build_normalization_context] using hfst)
        refine ⟨by simpa [h] using hb.1, by simpa [h] using hb.2, ?_⟩
        rw [h]
        norm_num [EVALUATION_WEIGHT]

theorem present_features_ne_nil (players : List Player) (p : Player)
    (hp : p ∈ players)
    (hpres : p.age ≠ none ∨ p.experience ≠ none ∨ uniform_ordinal p ≠ none ∨
      p.evaluation_score ≠ none) :
    present_features p (build_normalization_context players) ≠ [] := by
  rcases hpres with h | h | h | h
  · cases hage : p.age with
    | none => exact absurd hage h
    | some a =>
      obtain ⟨r, hr, _, _⟩ := norm_of_mem
        (List.mem_filterMap.mpr ⟨p, hp, by rw [hage]⟩ : a ∈ players.filterMap Player.age)
      apply List.ne_nil_of_mem (a := (r, AGE_WEIGHT))
      apply List.mem_filterMap.mpr
      refine ⟨(norm_val p.age (build_normalization_context players).age, AGE_WEIGHT),
        by simp [feature_list], ?_⟩
      rw [hage]
      simp [build_normalization_context, hr]
  · cases hexp : p.experience with
    | none => exact absurd hexp h
    | some a =>
      obtain ⟨r, hr, _, _⟩ := norm_of_mem
        (List.mem_filterMap.mpr ⟨p, hp, by rw [hexp]⟩ : a ∈ players.filterMap Player.experience)
      apply List.ne_nil_of_mem (a := (r, EXPERIENCE_WEIGHT))
      apply List.mem_filterMap.mpr
      refine ⟨(norm_val p.experience (build_normalization_context players).experience, EXPERIENCE_WEIGHT),
        by simp [feature_list], ?_⟩
      rw [hexp]
      simp [build_normalization_context, hr]
  · cases huni : uniform_ordinal p with
    | none => exact absurd huni h
    | some a =>
      obtain ⟨r, hr, _, _⟩ := norm_of_mem
        (List.mem_filterMap.mpr ⟨p, hp, by rw [huni]⟩ : a ∈ players.filterMap uniform_ordinal)
      apply List.ne_nil_of_mem (a := (r, UNIFORM_SIZE_WEIGHT))
      apply List.mem_filterMap.mpr
      refine ⟨(norm_val (uniform_ordinal p) (build_normalization_context players).uniform_size, UNIFORM_SIZE_WEIGHT),
        by simp [feature_list], ?_⟩
      rw [huni]
      simp [build_normalization_context, hr]
  · cases heva : p.evaluation_score with
    | none => exact absurd heva h
    | some a =>
      obtain ⟨r, hr, _, _⟩ := norm_of_mem
        (List.mem_filterMap.mpr ⟨p, hp, by rw [heva]⟩ : a ∈ players.filterMap Player.evaluation_score)
      apply List.ne_nil_of_mem (a := (r, EVALUATION_WEIGHT))
      apply List.mem_filterMap.mpr
      refine ⟨(norm_val p.evaluation_score (build_normalization_context players).evaluation_score, EVALUATION_WEIGHT),
        by simp [feature_list], ?_⟩
      rw [heva]
      simp [build_normalization_context, hr]

/-- C5: for every player of the population the normalization context was built
from, calculate_player_skill_score is in the unit interval and an integer
multiple of 1/10000 (at most 4 decimal digits) whenever at least one of the
four features is present for that player, and is exactly 0 when no feature is
present. -/
theorem c5_skill_score_range_and_granularity (players : List Player) (p : Player)
    (hp : p ∈ players) :
    (p.age ≠ none ∨ p.experience ≠ none ∨ uniform_ordinal p ≠ none ∨
        p.evaluation_score ≠ none →
      0 ≤ calculate_player_skill_score p (build_normalization_context players) ∧
      calculate_player_skill_score p (build_normalization_context players) ≤ 1 ∧
      ∃ n : ℤ, calculate_player_skill_score p (build_normalization_context players) =
        n / 10000) ∧
    (p.age = none ∧ p.experience = none ∧ uniform_ordinal p = none ∧
        p.evaluation_score = none →
      calculate_player_skill_score p (build_normalization_context players) = 0) := by
  constructor
  · intro hpres
    have hne := present_features_ne_nil players p hp hpres
    have hbounds := present_features_mem_bounds players p hp
    rw [calculate_player_skill_score_eq, if_neg hne]
    obtain ⟨hS0, hSW, hW0⟩ := weighted_sum_bounds _ hbounds
    have hWpos : 0 < ((present_features p (build_normalization_context players)).map Prod.snd).sum :=
      sum_snd_pos _ hne (fun vw hvw => (hbounds vw hvw).2.2)
    have hq0 : 0 ≤ ((present_features p (build_normalization_context players)).map
        (fun vw => vw.1 * vw.2)).sum / ((present_features p (build_normalization_context players)).map Prod.snd).sum :=
      div_nonneg hS0 (le_of_lt hWpos)
    have hq1 : ((present_features p (build_normalization_context players)).map
        (fun vw => vw.1 * vw.2)).sum / ((present_features p (build_normalization_context players)).map Prod.snd).sum ≤ 1 := by
      rw [div_le_one hWpos]; exact hSW
    obtain ⟨hr0, hr1⟩ := roundTo4_bounds hq0 hq1
    exact ⟨hr0, hr1, ⟨round (((present_features p (build_normalization_context players)).map
      (fun vw => vw.1 * vw.2)).sum / ((present_features p (build_normalization_context players)).map Prod.snd).sum * 10000), rfl⟩⟩
  · rintro ⟨h1, h2, h3, h4⟩
    have hps : present_features p (build_normalization_context players) = [] := by
      simp [present_features, feature_list, h1, h2, h3, h4, norm_val_none]
    rw [calculate_player_skill_score_eq, if_pos hps]

/-- Witness for C5 at a concrete one-player population with all features
present: the score is within bounds and a multiple of 1/10000. -/
theorem c5_witness :
    0 ≤ calculate_player_skill_score samplePlayerA
        (build_normalization_context [samplePlayerA]) ∧
    calculate_player_skill_score samplePlayerA
        (build_normalization_context [samplePlayerA]) ≤ 1 ∧
    ∃ n : ℤ, calculate_player_skill_score samplePlayerA
        (build_normalization_context [samplePlayerA]) = n / 10000 :=
  (c5_skill_score_range_and_granularity [samplePlayerA] samplePlayerA
    (by decide)).1 (by decide)

theorem mem_siblings_list_iff (players : List Player) (x y : Player)
    (hids : (players.map Player.player_id).Nodup)
    (hx : x ∈ players) (hy : y ∈ players) :
    y.player_id ∈ siblings_list players x ↔
      familyKey x = familyKey y ∧ x.player_id ≠ y.player_id := by
  constructor
  · intro hmem
    simp only [siblings_list, List.mem_filter, Bool.not_eq_eq_eq_not, Bool.not_true,
      beq_eq_false_iff_ne, ne_eq] at hmem
    obtain ⟨hfam, hne⟩ := hmem
    simp only [family_ids, List.mem_map, List.mem_filter, decide_eq_true_eq] at hfam
    obtain ⟨q, ⟨hqmem, hqkey⟩, hqid⟩ := hfam
    have hqy : q = y := List.inj_on_of_nodup_map hids hqmem hy hqid
    subst hqy
    exact ⟨hqkey.symm, fun h => hne h.symm⟩
  · rintro ⟨hkey, hne⟩
    simp only [siblings_list, List.mem_filter, Bool.not_eq_eq_eq_not, Bool.not_true,
      beq_eq_false_iff_ne, ne_eq]
    refine ⟨?_, fun h => hne h.symm⟩
    simp only [family_ids, List.mem_map, List.mem_filter, decide_eq_true_eq]
    exact ⟨y, ⟨hy, hkey.symm⟩, rfl⟩

/-- C7 (amended): the sibling relation derived by parse_players_csv_reader is
exact equality of the (parent name, street address) key excluding self, hence
symmetric and never formed by partial match; however, players with blank or
absent keys are NOT excluded — the table groups them under the shared absent
key like any other. -/
theorem c7_sibling_relation (players : List Player) (pa pb : Player)
    (hids : (players.map Player.player_id).Nodup)
    (ha : pa ∈ players) (hb : pb ∈ players) :
    (pb.player_id ∈ siblings_list players pa ↔
      familyKey pa = familyKey pb ∧ pa.player_id ≠ pb.player_id) ∧
    (pb.player_id ∈ siblings_list players pa ↔
      pa.player_id ∈ siblings_list players pb) := by
  have h1 := mem_siblings_list_iff players pa pb hids ha hb
  have h2 := mem_siblings_list_iff players pb pa hids hb ha
  refine ⟨h1, ?_⟩
  rw [h1, h2]
  constructor
  · rintro ⟨hk, hn⟩
    exact ⟨hk.symm, fun h => hn h.symm⟩
  · rintro ⟨hk, hn⟩
    exact ⟨hk.symm, fun h => hn h.symm⟩

/-- Witness for C7 (amended) on a concrete two-member family. -/
theorem c7_witness :
    (famPlayerB.player_id ∈ siblings_list [famPlayerA, famPlayerB] famPlayerA ↔
      familyKey famPlayerA = familyKey famPlayerB ∧
      famPlayerA.player_id ≠ famPlayerB.player_id) ∧
    (famPlayerB.player_id ∈ siblings_list [famPlayerA, famPlayerB] famPlayerA ↔
      famPlayerA.player_id ∈ siblings_list [famPlayerA, famPlayerB] famPlayerB) :=
  c7_sibling_relation [famPlayerA, famPlayerB] famPlayerA famPlayerB
    (by decide) (by decide) (by decide)

/-- C7 counterexample: two players who both lack parent and address data are
grouped as siblings by the parser derivation (the blank key is not excluded),
contradicting the claim that such players are never grouped. -/
theorem c7_counterexample :
    blankPlayerA.parent_name = none ∧ blankPlayerA.street_address = none ∧
    blankPlayerB.parent_name = none ∧ blankPlayerB.street_address = none ∧
    blankPlayerB.player_id ∈ siblings_list [blankPlayerA, blankPlayerB] blankPlayerA ∧
    (compute_siblings [blankPlayerA, blankPlayerB]).map Player.siblings =
      [["B2"], ["B1"]] := by
  decide

theorem add_player_players (p : Player) (t : Team) :
    (add_player_to_team p t).players = t.players ++ [p] := by
  unfold add_player_to_team
  cases p.skill_score <;> by_cases h : truthy p.sponsor_id <;> simp [h]

theorem add_player_sponsor (p : Player) (t : Team) :
    (add_player_to_team p t).sponsor_id =
      if truthy p.sponsor_id then p.sponsor_id else t.sponsor_id := by
  unfold add_player_to_team
  cases p.skill_score <;> by_cases h : truthy p.sponsor_id <;> simp [h]

theorem add_player_total (p : Player) (t : Team) :
    (add_player_to_team p t).total_score = t.total_score + scoreOf p := by
  unfold add_player_to_team scoreOf
  cases p.skill_score <;> by_cases h : truthy p.sponsor_id <;> simp [h]

theorem addsTo_refl (t : Team) : AddsTo t t := ⟨[], rfl⟩

theorem addsTo_add (p : Player) (t : Team) :
    AddsTo t (add_player_to_team p t) := ⟨[p], rfl⟩

theorem addsTo_trans {a b c : Team} (h1 : AddsTo a b) (h2 : AddsTo b c) :
    AddsTo a c := by
  obtain ⟨l1, rfl⟩ := h1
  obtain ⟨l2, rfl⟩ := h2
  exact ⟨l1 ++ l2, by rw [addList, addList, addList, List.foldl_append]⟩

theorem addsTo_preserve {P : Team → Prop}
    (hP : ∀ p t, P t → P (add_player_to_team p t)) :
    ∀ {t t' : Team}, AddsTo t t' → P t → P t' := by
  rintro t t' ⟨l, rfl⟩ ht
  induction l generalizing t with
  | nil => exact ht
  | cons p rest ih =>
    show P (addList (add_player_to_team p t) rest)
    exact ih (hP p t ht)

theorem add_player_sponsor_stays (p : Player) (t : Team)
    (h : truthy t.sponsor_id = true) :
    truthy (add_player_to_team p t).sponsor_id = true := by
  rw [add_player_sponsor]
  by_cases hp : truthy p.sponsor_id = true
  · rw [if_pos hp]; exact hp
  · rw [if_neg hp]; exact h

theorem addsTo_sponsor {t t' : Team} (h : AddsTo t t')
    (ht : truthy t.sponsor_id = true) : truthy t'.sponsor_id = true :=
  addsTo_preserve (fun p t hp => add_player_sponsor_stays p t hp) h ht

theorem sumScores_append (l1 l2 : List Player) :
    sumScores (l1 ++ l2) = sumScores l1 + sumScores l2 := by
  simp [sumScores, List.map_append, List.sum_append]

theorem add_player_score_inv (p : Player) (t : Team) (h : score_inv t) :
    score_inv (add_player_to_team p t) := by
  rw [score_inv, add_player_total, add_player_players, sumScores_append, h]
  simp [sumScores, scoreOf]

theorem addsTo_score_inv {t t' : Team} (h : AddsTo t t') (ht : score_inv t) :
    score_inv t' :=
  addsTo_preserve add_player_score_inv h ht

theorem assign_one_coach_addsTo (players : List Player) (acc : Team × List String)
    (c : Option Coach) : AddsTo acc.1 (assign_one_coach players acc c).1 := by
  cases c with
  | none => exact addsTo_refl _
  | some coach =>
    simp only [assign_one_coach]
    split
    · split
      · split
        · exact addsTo_refl _
        · exact addsTo_add _ _
      · exact addsTo_refl _
    · exact addsTo_refl _

theorem acap_get? (players : List Player) :
    ∀ (teams : List Team) (asg : List String) (i : ℕ) (t : Team),
      teams.get? i = some t →
      ∃ t', (assign_coach_associated_players teams players asg).1.get? i = some t' ∧
        AddsTo t t' := by
  intro teams
  induction teams with
  | nil => intro asg i t h; simp at h
  | cons t0 rest ih =>
    intro asg i t h
    cases i with
    | zero =>
      simp only [List.get?] at h
      cases h
      refine ⟨_, rfl, ?_⟩
      exact addsTo_trans (assign_one_coach_addsTo players (t0, asg) (some t0.head_coach))
        (assign_one_coach_addsTo players _ t0.assistant_coach)
    | succ n =>
      simp only [List.get?] at h
      exact ih _ n t h

theorem fill_one_team_go_addsTo (m : ℕ) :
    ∀ (fuel : ℕ) (t : Team) (un : List Player) (rand : ℕ → ℕ) (k : ℕ),
      AddsTo t (fill_one_team_go m fuel t un rand k).1 := by
  intro fuel
  induction fuel with
  | zero => intro t un rand k; exact addsTo_refl t
  | succ n ih =>
    intro t un rand k
    rw [fill_one_team_go]
    split
    next hc => exact addsTo_trans (addsTo_add _ _) (ih _ _ rand _)
    next hc => exact addsTo_refl t

theorem fill_one_team_addsTo (m : ℕ) (t : Team) (un : List Player)
    (rand : ℕ → ℕ) (k : ℕ) : AddsTo t (fill_one_team m t un rand k).1 :=
  fill_one_team_go_addsTo m un.length t un rand k

theorem fill_get? :
    ∀ (teams : List Team) (un : List Player) (rand : ℕ → ℕ) (k : ℕ) (m : ℕ)
      (i : ℕ) (t : Team), teams.get? i = some t →
      ∃ t', (fill_teams_to_minimum teams un rand k m).1.get? i = some t' ∧
        AddsTo t t' := by
  intro teams
  induction teams with
  | nil => intro un rand k m i t h; simp at h
  | cons t0 rest ih =>
    intro un rand k m i t h
    cases i with
    | zero =>
      simp only [List.get?] at h
      cases h
      exact ⟨_, rfl, fill_one_team_addsTo m t0 un rand k⟩
    | succ n =>
      simp only [List.get?] at h
      exact ih _ rand _ m n t h

theorem get?_lt_length {α : Type} {l : List α} {i : ℕ} {a : α}
    (h : l.get? i = some a) : i < l.length := by
  by_contra hub
  push_neg at hub
  rw [List.get?_eq_getElem?, List.getElem?_eq_none hub] at h
  cases h

theorem TB.assign_loop_get? :
    ∀ (l : List Player) (teams : List Team) (rand : ℕ → ℕ) (k : ℕ) (res : List Team),
      TB.assign_loop teams l rand k = some res →
      ∀ i t, teams.get? i = some t → ∃ t', res.get? i = some t' ∧ AddsTo t t' := by
  intro l
  induction l with
  | nil =>
    intro teams rand k res h i t ht
    simp only [TB.assign_loop] at h
    cases h
    exact ⟨t, ht, addsTo_refl t⟩
  | cons p rest ih =>
    intro teams rand k res h i t ht
    simp only [TB.assign_loop] at h
    cases hfb : TB.find_best_team_for_player p teams (rand k) with
    | none => rw [hfb] at h; cases h
    | some j =>
      rw [hfb] at h
      dsimp only at h
      cases hj : teams.get? j with
      | none => rw [hj] at h; cases h
      | some tj =>
        rw [hj] at h
        dsimp only at h
        by_cases hij : i = j
        · subst hij
          rw [ht] at hj
          cases hj
          have hilen : i < teams.length := get?_lt_length ht
          have hset : (teams.set i (add_player_to_team p t)).get? i =
              some (add_player_to_team p t) := by
            rw [List.get?_eq_getElem?, List.getElem?_set_self hilen]
          obtain ⟨t', h1, h2⟩ := ih _ rand _ res h i _ hset
          exact ⟨t', h1, addsTo_trans (addsTo_add p t) h2⟩
        · have hset : (teams.set j (add_player_to_team p tj)).get? i = some t := by
            rw [List.get?_eq_getElem?, List.getElem?_set_ne (Ne.symm hij),
              ← List.get?_eq_getElem?]
            exact ht
          exact ih _ rand _ res h i t hset

theorem TB.assign_remaining_get? (teams : List Team) (un : List Player)
    (rand : ℕ → ℕ) (k : ℕ) (res : List Team)
    (h : TB.assign_remaining_players_by_skill teams un rand k = some res) :
    ∀ i t, teams.get? i = some t → ∃ t', res.get? i = some t' ∧ AddsTo t t' :=
  TB.assign_loop_get? _ teams rand k res h

theorem TB.assign_players_get? (teams : List Team) (players : List Player)
    (n : ℕ) (rand : ℕ → ℕ) (res : List Team)
    (h : TB.assign_players_to_teams teams players n rand = some res) :
    ∀ i t, teams.get? i = some t → ∃ t', res.get? i = some t' ∧ AddsTo t t' := by
  intro i t ht
  obtain ⟨t1, ht1, ha1⟩ := acap_get? players teams [] i t ht
  obtain ⟨t2, ht2, ha2⟩ := fill_get? (assign_coach_associated_players teams players []).1
    (players.filter (fun p => p.player_id ∉ (assign_coach_associated_players teams players []).2))
    rand 0 2 i t1 ht1
  obtain ⟨t3, ht3, ha3⟩ := TB.assign_remaining_get? _ _ rand _ res h i t2 ht2
  exact ⟨t3, ht3, addsTo_trans ha1 (addsTo_trans ha2 ha3)⟩

/-- C2 (amended): a team's sponsor id, once set, is never CLEARED by any later
player addition of any pass of the package pipeline — it remains set through a
whole assign_players_to_teams run — but it is not write-once: each later
sponsored addition overwrites it with its own sponsor id, while additions
without a sponsor id leave it unchanged. -/
theorem c2_sponsor_persistence :
    (∀ (p : Player) (t : Team), truthy t.sponsor_id = true →
      truthy (add_player_to_team p t).sponsor_id = true) ∧
    (∀ (p : Player) (t : Team), truthy p.sponsor_id = false →
      (add_player_to_team p t).sponsor_id = t.sponsor_id) ∧
    (∀ (p : Player) (t : Team), truthy p.sponsor_id = true →
      (add_player_to_team p t).sponsor_id = p.sponsor_id) ∧
    (∀ (teams : List Team) (players : List Player) (n : ℕ) (rand : ℕ → ℕ)
      (res : List Team) (i : ℕ) (t t' : Team),
      TB.assign_players_to_teams teams players n rand = some res →
      teams.get? i = some t → res.get? i = some t' →
      truthy t.sponsor_id = true → truthy t'.sponsor_id = true) := by
  refine ⟨add_player_sponsor_stays, ?_, ?_, ?_⟩
  · intro p t hp
    rw [add_player_sponsor, if_neg (by simp [hp])]
  · intro p t hp
    rw [add_player_sponsor, if_pos hp]
  · intro teams players n rand res i t t' h ht ht' hset
    obtain ⟨t'', ht'', ha⟩ := TB.assign_players_get? teams players n rand res h i t ht
    rw [ht''] at ht'
    cases ht'
    exact addsTo_sponsor ha hset

/-- Witness for C2 (amended): a sponsored addition installs its sponsor id. -/
theorem c2_witness :
    (add_player_to_team sponsoredPlayerA teamAB).sponsor_id =
      sponsoredPlayerA.sponsor_id :=
  c2_sponsor_persistence.2.2.1 sponsoredPlayerA teamAB (by decide)

/-- C2 counterexample: within one run of the coach-associated pass, the head
slot's addition sets the team sponsor to SA, and the assistant slot's later
addition overwrites it to SB — the sponsor id is set and then overwritten by
a later operation of the same pipeline pass. -/
theorem c2_counterexample :
    (add_player_to_team sponsoredPlayerA teamAB).sponsor_id = some "SA" ∧
    (assign_coach_associated_players [teamAB]
      [sponsoredPlayerA, sponsoredPlayerB] []).1.map Team.sponsor_id = [some "SB"] ∧
    (some "SB" : Option String) ≠ some "SA" := by
  decide

theorem acap_length (players : List Player) :
    ∀ (teams : List Team) (asg : List String),
      (assign_coach_associated_players teams players asg).1.length = teams.length := by
  intro teams
  induction teams with
  | nil => intro asg; rfl
  | cons t0 rest ih =>
    intro asg
    simp only [assign_coach_associated_players, List.length_cons]
    rw [ih]

theorem fill_length :
    ∀ (teams : List Team) (un : List Player) (rand : ℕ → ℕ) (k m : ℕ),
      (fill_teams_to_minimum teams un rand k m).1.length = teams.length := by
  intro teams
  induction teams with
  | nil => intro un rand k m; rfl
  | cons t0 rest ih =>
    intro un rand k m
    simp only [fill_teams_to_minimum, List.length_cons]
    rw [ih]

theorem TB.assign_loop_length :
    ∀ (l : List Player) (teams : List Team) (rand : ℕ → ℕ) (k : ℕ) (res : List Team),
      TB.assign_loop teams l rand k = some res → res.length = teams.length := by
  intro l
  induction l with
  | nil =>
    intro teams rand k res h
    simp only [TB.assign_loop] at h
    cases h
    rfl
  | cons p rest ih =>
    intro teams rand k res h
    simp only [TB.assign_loop] at h
    cases hfb : TB.find_best_team_for_player p teams (rand k) with
    | none => rw [hfb] at h; cases h
    | some j =>
      rw [hfb] at h
      dsimp only at h
      cases hj : teams.get? j with
      | none => rw [hj] at h; cases h
      | some tj =>
        rw [hj] at h
        dsimp only at h
        rw [ih _ rand _ res h, List.length_set]

theorem TB.assign_players_length (teams : List Team) (players : List Player)
    (n : ℕ) (rand : ℕ → ℕ) (res : List Team)
    (h : TB.assign_players_to_teams teams players n rand = some res) :
    res.length = teams.length := by
  have h1 := TB.assign_loop_length _ _ rand _ res h
  rw [h1, fill_length, acap_length]

theorem get?_of_lt {α : Type} {l : List α} {i : ℕ} (h : i < l.length) :
    ∃ a, l.get? i = some a := by
  cases hg : l.get? i with
  | none =>
    rw [List.get?_eq_getElem?] at hg
    rw [List.getElem?_eq_none_iff] at hg
    omega
  | some a => exact ⟨a, rfl⟩

/-- C3: the running total is the exact sum of member score contributions:
add_player_to_team maintains the invariant incrementally; the coach pass, the
fill pass and the greedy pass each preserve it team by team; and a whole
package pipeline run started from teams satisfying it ends with every team
satisfying it. -/
theorem c3_total_score_invariant :
    (∀ (p : Player) (t : Team), score_inv t → score_inv (add_player_to_team p t)) ∧
    (∀ (teams : List Team) (players : List Player) (asg : List String)
      (i : ℕ) (t t' : Team), teams.get? i = some t →
      (assign_coach_associated_players teams players asg).1.get? i = some t' →
      score_inv t → score_inv t') ∧
    (∀ (teams : List Team) (un : List Player) (rand : ℕ → ℕ) (k m i : ℕ)
      (t t' : Team), teams.get? i = some t →
      (fill_teams_to_minimum teams un rand k m).1.get? i = some t' →
      score_inv t → score_inv t') ∧
    (∀ (teams : List Team) (un : List Player) (rand : ℕ → ℕ) (k : ℕ)
      (res : List Team) (i : ℕ) (t t' : Team),
      TB.assign_remaining_players_by_skill teams un rand k = some res →
      teams.get? i = some t → res.get? i = some t' →
      score_inv t → score_inv t') ∧
    (∀ (teams : List Team) (players : List Player) (n : ℕ) (rand : ℕ → ℕ)
      (res : List Team),
      TB.assign_players_to_teams teams players n rand = some res →
      (∀ t ∈ teams, score_inv t) → ∀ t' ∈ res, score_inv t') := by
  refine ⟨add_player_score_inv, ?_, ?_, ?_, ?_⟩
  · intro teams players asg i t t' ht ht' hinv
    obtain ⟨t'', ht'', ha⟩ := acap_get? players teams asg i t ht
    rw [ht''] at ht'
    cases ht'
    exact addsTo_score_inv ha hinv
  · intro teams un rand k m i t t' ht ht' hinv
    obtain ⟨t'', ht'', ha⟩ := fill_get? teams un rand k m i t ht
    rw [ht''] at ht'
    cases ht'
    exact addsTo_score_inv ha hinv
  · intro teams un rand k res i t t' h ht ht' hinv
    obtain ⟨t'', ht'', ha⟩ := TB.assign_remaining_get? teams un rand k res h i t ht
    rw [ht''] at ht'
    cases ht'
    exact addsTo_score_inv ha hinv
  · intro teams players n rand res h hall t' ht'
    obtain ⟨i, hi⟩ := List.mem_iff_get?.mp ht'
    have hlen : i < teams.length := by
      have := get?_lt_length hi
      rwa [TB.assign_players_length teams players n rand res h] at this
    obtain ⟨t, ht⟩ := get?_of_lt hlen
    obtain ⟨t'', ht'', ha⟩ := TB.assign_players_get? teams players n rand res h i t ht
    rw [ht''] at hi
    cases hi
    exact addsTo_score_inv ha (hall t (List.get?_mem ht))

/-- Witness for C3: a concrete addition preserves the invariant. -/
theorem c3_witness : score_inv (add_player_to_team samplePlayerA teamAB) :=
  c3_total_score_invariant.1 samplePlayerA teamAB (by unfold score_inv; decide)

theorem insert_desc_perm (p : Player) (l : List Player) :
    List.Perm (insert_desc p l) (p :: l) := by
  induction l with
  | nil => rfl
  | cons q rest ih =>
    rw [insert_desc]
    split
    · exact List.Perm.refl _
    · exact List.Perm.trans (List.Perm.cons q ih) (List.Perm.swap p q rest)

theorem sort_players_desc_perm (l : List Player) :
    List.Perm (sort_players_desc l) l := by
  induction l with
  | nil => rfl
  | cons p rest ih =>
    rw [sort_players_desc]
    exact List.Perm.trans (insert_desc_perm p (sort_players_desc rest))
      (List.Perm.cons p ih)

theorem TB.assign_loop_nil_teams (l : List Player) (rand : ℕ → ℕ) (k : ℕ)
    (hl : l ≠ []) : TB.assign_loop [] l rand k = none := by
  cases l with
  | nil => exact absurd rfl hl
  | cons p rest =>
    have hfb : TB.find_best_team_for_player p [] (rand k) = none := rfl
    simp only [TB.assign_loop, hfb]

theorem TB.assign_remaining_nil_teams (un : List Player) (rand : ℕ → ℕ) (k : ℕ)
    (hun : un ≠ []) : TB.assign_remaining_players_by_skill [] un rand k = none := by
  have hperm := sort_players_desc_perm un
  apply TB.assign_loop_nil_teams
  intro hnil
  rw [hnil] at hperm
  have hlen := hperm.length_eq
  simp only [List.length_nil] at hlen
  exact hun (List.length_eq_zero.mp hlen.symm)

/-- C9 (amended): zero coaches seed zero teams; with zero teams the package
pipeline completes only when there is no player to place (all passes are
no-ops), while with at least one player the greedy pass's selector has no
team to return and the run fails — Python raises IndexError from
random.choice over the empty candidate list, modelled by none. -/
theorem c9_zero_coaches (shuffle : List Coach → List Coach)
    (players : List Player) (n : ℕ) (rand : ℕ → ℕ) :
    seed_teams_with_coaches [] [] shuffle = [] ∧
    TB.assign_players_to_teams [] [] n rand = some [] ∧
    (players ≠ [] → TB.assign_players_to_teams [] players n rand = none) := by
  refine ⟨rfl, rfl, ?_⟩
  intro hne
  have hfil : players.filter (fun p => p.player_id ∉ ([] : List String)) = players := by
    apply List.filter_eq_self.mpr
    intro a _
    simp
  show TB.assign_remaining_players_by_skill []
    (players.filter (fun p => p.player_id ∉ ([] : List String))) rand 0 = none
  apply TB.assign_remaining_nil_teams
  rw [hfil]
  exact hne

/-- Witness for C9 (amended) at a concrete one-player input. -/
theorem c9_witness :
    TB.assign_players_to_teams [] [samplePlayerBlank] 5 (fun k => k) = none :=
  (c9_zero_coaches (fun l => l) [samplePlayerBlank] 5 (fun k => k)).2.2 (by decide)

/-- C9 counterexample: with zero coaches (hence zero teams) and one player,
the pipeline does not complete without raising — random.choice crashes on the
empty candidate pool — contradicting the claim that the run completes leaving
the players unassigned. -/
theorem c9_counterexample :
    seed_teams_with_coaches [] [] (fun l => l) = [] ∧
    TB.assign_players_to_teams [] [samplePlayerBlank] 2 (fun _ => 0) = none := by
  constructor
  · rfl
  · rfl

theorem fill_one_team_empty (m : ℕ) (t : Team) (rand : ℕ → ℕ) (k : ℕ) :
    fill_one_team m t [] rand k = (t, [], k) := rfl

theorem fill_empty_un :
    ∀ (teams : List Team) (rand : ℕ → ℕ) (k m : ℕ),
      (fill_teams_to_minimum teams [] rand k m).2.1 = [] := by
  intro teams
  induction teams with
  | nil => intro rand k m; rfl
  | cons t0 rest ih =>
    intro rand k m
    simp only [fill_teams_to_minimum, fill_one_team_empty]
    exact ih rand k m

theorem fill_one_team_go_min (m : ℕ) :
    ∀ (fuel : ℕ) (t : Team) (un : List Player) (rand : ℕ → ℕ) (k : ℕ),
      un.length ≤ fuel →
      (fill_one_team_go m fuel t un rand k).2.1 ≠ [] →
      m ≤ (fill_one_team_go m fuel t un rand k).1.players.length := by
  intro fuel
  induction fuel with
  | zero =>
    intro t un rand k hfu hne
    cases un with
    | nil => exact absurd rfl hne
    | cons a l => simp at hfu
  | succ n ih =>
    intro t un rand k hfu hne
    rw [fill_one_team_go] at hne ⊢
    split at hne
    next hc =>
      rw [dif_pos hc]
      apply ih _ _ rand _ _ hne
      have hlt : rand k % un.length < un.length := Nat.mod_lt _ hc.2
      simp only [List.length_eraseIdx]
      rw [if_pos hlt]
      omega
    next hc =>
      rw [dif_neg hc]
      show m ≤ t.players.length
      rcases not_and_or.mp hc with h1 | h2
      · omega
      · exfalso
        apply h2
        cases un with
        | nil => exact absurd rfl hne
        | cons a l => simp

theorem fill_one_team_min (m : ℕ) (t : Team) (un : List Player)
    (rand : ℕ → ℕ) (k : ℕ) :
    (fill_one_team m t un rand k).2.1 ≠ [] →
    m ≤ (fill_one_team m t un rand k).1.players.length :=
  fill_one_team_go_min m un.length t un rand k (le_refl _)

theorem fill_min_post :
    ∀ (teams : List Team) (un : List Player) (rand : ℕ → ℕ) (k m : ℕ),
      (fill_teams_to_minimum teams un rand k m).2.1 ≠ [] →
      ∀ t ∈ (fill_teams_to_minimum teams un rand k m).1, m ≤ t.players.length := by
  intro teams
  induction teams with
  | nil => intro un rand k m hne t ht; cases ht
  | cons t0 rest ih =>
    intro un rand k m hne t ht
    simp only [fill_teams_to_minimum] at hne ht
    rcases List.mem_cons.mp ht with rfl | hmem
    · apply fill_one_team_min
      intro hnil
      apply hne
      rw [hnil, fill_empty_un]
    · exact ih _ rand _ m hne t hmem

/-- C8 (amended): the assignment pipelines ignore their team-size argument
entirely — any two argument values give identical runs — and fill to a
hardcoded minimum instead (2 in the package, the MIN_TEAM_SIZE constant 3 in
the single file).  fill_teams_to_minimum itself does fill every team up to
its min_team_size parameter whenever unassigned players remain afterwards. -/
theorem c8_team_size_argument_ignored :
    (∀ (teams : List Team) (players : List Player) (n m : ℕ) (rand : ℕ → ℕ),
      TB.assign_players_to_teams teams players n rand =
      TB.assign_players_to_teams teams players m rand) ∧
    (∀ (teams : List Team) (players : List Player) (n m : ℕ) (rand : ℕ → ℕ),
      Single.assign_players_to_teams teams players n rand =
      Single.assign_players_to_teams teams players m rand) ∧
    (∀ (teams : List Team) (un : List Player) (rand : ℕ → ℕ) (k m : ℕ),
      (fill_teams_to_minimum teams un rand k m).2.1 ≠ [] →
      ∀ t ∈ (fill_teams_to_minimum teams un rand k m).1, m ≤ t.players.length) :=
  ⟨fun _ _ _ _ _ => rfl, fun _ _ _ _ _ => rfl, fill_min_post⟩

/-- Witness for C8 (amended): a concrete fill run with minimum 1 and a player
left over reaches the minimum on every team. -/
theorem c8_witness :
    ∀ t ∈ (fill_teams_to_minimum [teamC1] [plainPlayer1, plainPlayer2]
      (fun _ => 0) 0 1).1, 1 ≤ t.players.length :=
  c8_team_size_argument_ignored.2.2 [teamC1] [plainPlayer1, plainPlayer2]
    (fun _ => 0) 0 1 (by decide)

/-- C8 counterexample: called with team-size argument 1, two teams and two
players, the package pipeline leaves team sizes (2, 0): the minimum-fill pass
used the hardcoded constant 2, not the adapter-supplied argument 1, and the
second team was not filled up to the requested value although a player was
available. -/
theorem c8_counterexample :
    (TB.assign_players_to_teams [teamC1, teamC2] [plainPlayer1, plainPlayer2]
      1 (fun _ => 0)).map (fun ts => ts.map (fun t => t.players.length)) =
      some [2, 0] := by
  decide

theorem TB.lt_opt_some {q b : ℚ} : TB.lt_opt q (some b) = true ↔ q < b := by
  simp [TB.lt_opt]

theorem TB.lt_opt_nat_some {n b : ℕ} : TB.lt_opt_nat n (some b) = true ↔ n < b := by
  simp [TB.lt_opt_nat]

theorem TB.sel_step_inv (p : Player) (st : TB.SelState) (it : ℕ × Team)
    (done : List (ℕ × Team)) (h : TB.sel_inv p done st) :
    TB.sel_inv p (done ++ [it]) (TB.sel_step p st it) := by
  by_cases hskip : (truthy p.sponsor_id && truthy it.2.sponsor_id) = true
  · have hand : truthy p.sponsor_id = true ∧ truthy it.2.sponsor_id = true := by
      simpa using hskip
    have hnelig : ¬TB.eligible p it.2 := fun hel => hel hand
    have hstep : TB.sel_step p st it = st := by rw [TB.sel_step, if_pos hskip]
    rw [hstep]
    rcases h with ⟨hst, hall⟩ | ⟨bs, bz, h1, h2, h3, h4, h5⟩
    · left
      refine ⟨hst, ?_⟩
      intro x hx
      rcases List.mem_append.mp hx with hx | hx
      · exact hall x hx
      · have hxit : x = it := List.mem_singleton.mp hx
        rw [hxit]
        exact hnelig
    · right
      refine ⟨bs, bz, h1, h2, h3, ?_, ?_⟩
      · intro i hi
        obtain ⟨w, hw, hrest⟩ := h4 i hi
        exact ⟨w, List.mem_append_left _ hw, hrest⟩
      · intro x hx hel
        rcases List.mem_append.mp hx with hx | hx
        · exact h5 x hx hel
        · have hxit : x = it := List.mem_singleton.mp hx
          rw [hxit] at hel
          exact absurd hel hnelig
  · have helig : TB.eligible p it.2 := by
      intro hcon
      exact hskip (by simp [hcon.1, hcon.2])
    rw [TB.sel_step, if_neg hskip]
    by_cases hreset : st.best_score = none ∨
        TB.lt_opt it.2.total_score st.best_score = true ∨
        (st.best_score = some it.2.total_score ∧ st.best_size ≠ none ∧
          TB.lt_opt_nat it.2.players.length st.best_size = true)
    · rw [if_pos hreset]
      right
      refine ⟨it.2.total_score, it.2.players.length, rfl, rfl, by simp, ?_, ?_⟩
      · intro i hi
        have hiit : i = it.1 := List.mem_singleton.mp hi
        exact ⟨it, List.mem_append_right _ (List.mem_singleton.mpr rfl),
          hiit.symm, helig, rfl, rfl⟩
      · intro x hx hel
        rcases List.mem_append.mp hx with hx | hx
        · rcases h with ⟨hst, hall⟩ | ⟨bs, bz, h1, h2, h3, h4, h5⟩
          · exact absurd hel (hall x hx)
          · have hold := h5 x hx hel
            rcases hreset with hr | hr | hr
            · rw [h1] at hr; cases hr
            · rw [h1] at hr
              have hlt := TB.lt_opt_some.mp hr
              rcases hold with hc | hc
              · left; linarith
              · left; rw [← hc.1]; exact hlt
            · obtain ⟨hra, hrb, hrc⟩ := hr
              rw [h1] at hra
              have hbs : bs = it.2.total_score := Option.some.inj hra
              rw [h2] at hrc
              have hsz := TB.lt_opt_nat_some.mp hrc
              rcases hold with hc | hc
              · left; rw [← hbs]; exact hc
              · right
                constructor
                · rw [← hbs]; exact hc.1
                · calc it.2.players.length ≤ bz := le_of_lt hsz
                    _ ≤ x.2.players.length := hc.2
        · have hxit : x = it := List.mem_singleton.mp hx
          rw [hxit]
          right
          exact ⟨rfl, le_refl _⟩
    · rw [if_neg hreset]
      have hsec : ∃ bs bz, st.best_score = some bs ∧ st.best_size = some bz ∧
          st.candidates ≠ [] ∧
          (∀ i ∈ st.candidates, ∃ w ∈ done, w.1 = i ∧ TB.eligible p w.2 ∧
            w.2.total_score = bs ∧ w.2.players.length = bz) ∧
          (∀ w ∈ done, TB.eligible p w.2 →
            bs < w.2.total_score ∨ (bs = w.2.total_score ∧ bz ≤ w.2.players.length)) := by
        rcases h with ⟨hst, _⟩ | hsec
        · exfalso
          apply hreset
          left
          rw [hst]
        · exact hsec
      obtain ⟨bs, bz, h1, h2, h3, h4, h5⟩ := hsec
      have hnotlt : ¬(it.2.total_score < bs) := by
        intro hlt
        apply hreset
        right; left
        rw [h1]
        exact TB.lt_opt_some.mpr hlt
      have hminle : bs ≤ it.2.total_score := le_of_not_lt hnotlt
      by_cases htie : st.best_score = some it.2.total_score ∧
          st.best_size = some it.2.players.length
      · rw [if_pos htie]
        right
        have hbs : bs = it.2.total_score := by
          rw [h1] at htie
          exact Option.some.inj htie.1
        have hbz : bz = it.2.players.length := by
          rw [h2] at htie
          exact Option.some.inj htie.2
        refine ⟨bs, bz, h1, h2, ?_, ?_, ?_⟩
        · simp
        · intro i hi
          rcases List.mem_append.mp hi with hi | hi
          · obtain ⟨w, hw, hrest⟩ := h4 i hi
            exact ⟨w, List.mem_append_left _ hw, hrest⟩
          · have hiit : i = it.1 := List.mem_singleton.mp hi
            exact ⟨it, List.mem_append_right _ (List.mem_singleton.mpr rfl),
              hiit.symm, helig, hbs.symm, hbz.symm⟩
        · intro x hx hel
          rcases List.mem_append.mp hx with hx | hx
          · exact h5 x hx hel
          · have hxit : x = it := List.mem_singleton.mp hx
            rw [hxit]
            right
            exact ⟨hbs, le_of_eq hbz⟩
      · rw [if_neg htie]
        right
        refine ⟨bs, bz, h1, h2, h3, ?_, ?_⟩
        · intro i hi
          obtain ⟨w, hw, hrest⟩ := h4 i hi
          exact ⟨w, List.mem_append_left _ hw, hrest⟩
        · intro x hx hel
          rcases List.mem_append.mp hx with hx | hx
          · exact h5 x hx hel
          · have hxit : x = it := List.mem_singleton.mp hx
            rw [hxit]
            rcases lt_or_eq_of_le hminle with hlt | heq
            · left; exact hlt
            · right
              refine ⟨heq, ?_⟩
              by_contra hgt
              push_neg at hgt
              apply hreset
              right; right
              refine ⟨by rw [h1, heq], ?_, ?_⟩
              · rw [h2]; intro hc; cases hc
              · rw [h2]; exact TB.lt_opt_nat_some.mpr hgt

theorem TB.sel_fold_inv (p : Player) :
    ∀ (l : List (ℕ × Team)) (st : TB.SelState) (done : List (ℕ × Team)),
      TB.sel_inv p done st →
      TB.sel_inv p (done ++ l) (l.foldl (TB.sel_step p) st) := by
  intro l
  induction l with
  | nil => intro st done h; simpa using h
  | cons it rest ih =>
    intro st done h
    have h2 := ih (TB.sel_step p st it) (done ++ [it]) (TB.sel_step_inv p st it done h)
    simpa [List.append_assoc] using h2

theorem TB.sel_inv_final (p : Player) (teams : List Team) :
    TB.sel_inv p teams.enum (teams.enum.foldl (TB.sel_step p) ⟨none, none, []⟩) := by
  have h0 : TB.sel_inv p [] ⟨none, none, []⟩ := Or.inl ⟨rfl, by intro x hx; cases hx⟩
  simpa using TB.sel_fold_inv p teams.enum ⟨none, none, []⟩ [] h0

theorem get?_mod_mem {α : Type} {l : List α} (hl : l ≠ []) (r : ℕ) :
    ∃ a, l.get? (r % l.length) = some a ∧ a ∈ l := by
  have hlen : 0 < l.length := List.length_pos.mpr hl
  obtain ⟨a, ha⟩ := get?_of_lt (Nat.mod_lt r hlen)
  exact ⟨a, ha, List.get?_mem ha⟩

theorem mem_enum_get? {teams : List Team} {it : ℕ × Team} (h : it ∈ teams.enum) :
    teams.get? it.1 = some it.2 := by
  rw [List.get?_eq_getElem?]
  exact List.mem_enum_iff_getElem?.mp h

theorem get?_mem_enum {teams : List Team} {j : ℕ} {u : Team}
    (h : teams.get? j = some u) : (j, u) ∈ teams.enum := by
  rw [List.mem_enum_iff_getElem?]
  rw [← List.get?_eq_getElem?]
  exact h

theorem TB.find_best_eq_candidates (p : Player) (teams : List Team) (r : ℕ)
    (hne : (teams.enum.foldl (TB.sel_step p) ⟨none, none, []⟩).candidates ≠ []) :
    TB.find_best_team_for_player p teams r =
      (teams.enum.foldl (TB.sel_step p) ⟨none, none, []⟩).candidates.get?
        (r % (teams.enum.foldl (TB.sel_step p) ⟨none, none, []⟩).candidates.length) := by
  show (if (teams.enum.foldl (TB.sel_step p) ⟨none, none, []⟩).candidates = []
      then List.range teams.length
      else (teams.enum.foldl (TB.sel_step p) ⟨none, none, []⟩).candidates).get?
    (r % (if (teams.enum.foldl (TB.sel_step p) ⟨none, none, []⟩).candidates = []
      then List.range teams.length
      else (teams.enum.foldl (TB.sel_step p) ⟨none, none, []⟩).candidates).length) = _
  rw [if_neg hne]

theorem TB.find_best_eq_range (p : Player) (teams : List Team) (r : ℕ)
    (he : (teams.enum.foldl (TB.sel_step p) ⟨none, none, []⟩).candidates = []) :
    TB.find_best_team_for_player p teams r =
      (List.range teams.length).get? (r % (List.range teams.length).length) := by
  show (if (teams.enum.foldl (TB.sel_step p) ⟨none, none, []⟩).candidates = []
      then List.range teams.length
      else (teams.enum.foldl (TB.sel_step p) ⟨none, none, []⟩).candidates).get?
    (r % (if (teams.enum.foldl (TB.sel_step p) ⟨none, none, []⟩).candidates = []
      then List.range teams.length
      else (teams.enum.foldl (TB.sel_step p) ⟨none, none, []⟩).candidates).length) = _
  rw [if_pos he]

theorem TB.find_best_some (p : Player) (teams : List Team) (r : ℕ)
    (hne : teams ≠ []) :
    ∃ i t, TB.find_best_team_for_player p teams r = some i ∧
      teams.get? i = some t := by
  by_cases hc : (teams.enum.foldl (TB.sel_step p) ⟨none, none, []⟩).candidates = []
  · have hrne : List.range teams.length ≠ [] := by
      intro hnil
      have hlr := List.length_range teams.length
      rw [hnil] at hlr
      exact hne (List.length_eq_zero.mp hlr.symm)
    obtain ⟨i, hi, himem⟩ := get?_mod_mem hrne r
    have hilt : i < teams.length := List.mem_range.mp himem
    obtain ⟨t, ht⟩ := get?_of_lt hilt
    refine ⟨i, t, ?_, ht⟩
    rw [TB.find_best_eq_range p teams r hc]
    exact hi
  · rcases TB.sel_inv_final p teams with ⟨hst, _⟩ | ⟨bs, bz, h1, h2, h3, h4, h5⟩
    · exact absurd (by rw [hst]) hc
    · obtain ⟨i, hi, himem⟩ := get?_mod_mem h3 r
      obtain ⟨it, hitmem, hit1, _⟩ := h4 i himem
      refine ⟨i, it.2, ?_, ?_⟩
      · rw [TB.find_best_eq_candidates p teams r h3]
        exact hi
      · rw [← hit1]
        exact mem_enum_get? hitmem

/-- C4 (amended): when at least one team is eligible (the player and the team
are not both sponsor-committed), the package selector returns an eligible team
with the lexicographically least (total score, member count) among the
eligible teams, for every random draw, and performs no mutation (it is a pure
query returning an index).  When NO team is eligible the sponsor constraint is
dropped, but so is the ranking: the selector returns a uniformly random index
over ALL teams whenever any exist.  The single-file selector never applies a
sponsor constraint at all: its result does not depend on the player. -/
theorem c4_selector_behaviour :
    (∀ (p : Player) (teams : List Team) (r : ℕ),
      (∃ j u, teams.get? j = some u ∧ TB.eligible p u) →
      ∃ i t, TB.find_best_team_for_player p teams r = some i ∧
        teams.get? i = some t ∧ TB.eligible p t ∧
        ∀ j u, teams.get? j = some u → TB.eligible p u →
          t.total_score < u.total_score ∨
          (t.total_score = u.total_score ∧ t.players.length ≤ u.players.length)) ∧
    (∀ (p : Player) (teams : List Team) (r : ℕ), teams ≠ [] →
      ∃ i t, TB.find_best_team_for_player p teams r = some i ∧
        teams.get? i = some t) ∧
    (∀ (p q : Player) (teams : List Team) (r : ℕ),
      Single.find_best_team_for_player p teams r =
      Single.find_best_team_for_player q teams r) := by
  refine ⟨?_, ?_, fun p q teams r => rfl⟩
  · intro p teams r hel
    obtain ⟨j, u, hj, heu⟩ := hel
    have hinv := TB.sel_inv_final p teams
    rcases hinv with ⟨hst, hall⟩ | ⟨bs, bz, h1, h2, h3, h4, h5⟩
    · exact absurd heu (hall (j, u) (get?_mem_enum hj))
    · obtain ⟨i, hi, himem⟩ := get?_mod_mem h3 r
      obtain ⟨it, hitmem, hit1, hitelig, hitsc, hitsz⟩ := h4 i himem
      have hgi : teams.get? i = some it.2 := by
        rw [← hit1]
        exact mem_enum_get? hitmem
      refine ⟨i, it.2, ?_, hgi, hitelig, ?_⟩
      · rw [TB.find_best_eq_candidates p teams r h3]
        exact hi
      · intro j' u' hj' heu'
        have h5' := h5 (j', u') (get?_mem_enum hj') heu'
        rw [hitsc, hitsz]
        exact h5'
  · intro p teams r hne
    exact TB.find_best_some p teams r hne

/-- Witness for C4 (amended): a sponsored player, one sponsor-committed team
and one free team — the selector must return the free team even though its
score is higher. -/
theorem c4_witness :
    ∃ i t, TB.find_best_team_for_player sponsPlayerS1 [sponsTeamHigh, freeTeamX] 0 =
        some i ∧
      [sponsTeamHigh, freeTeamX].get? i = some t ∧ TB.eligible sponsPlayerS1 t ∧
      ∀ j u, [sponsTeamHigh, freeTeamX].get? j = some u →
        TB.eligible sponsPlayerS1 u →
        t.total_score < u.total_score ∨
        (t.total_score = u.total_score ∧ t.players.length ≤ u.players.length) :=
  c4_selector_behaviour.1 sponsPlayerS1 [sponsTeamHigh, freeTeamX] 0
    ⟨1, freeTeamX, rfl, by rw [TB.eligible]; decide⟩

/-- C4 counterexample: a sponsored player facing two sponsor-committed teams.
The claim says the constraint is dropped and the selector still returns a team
with the lowest total score; the code instead picks uniformly over all teams
and here returns the strictly higher-scored one. -/
theorem c4_counterexample :
    truthy sponsPlayerS1.sponsor_id = true ∧
    truthy sponsTeamHigh.sponsor_id = true ∧
    truthy sponsTeamLow.sponsor_id = true ∧
    sponsTeamLow.total_score < sponsTeamHigh.total_score ∧
    TB.find_best_team_for_player sponsPlayerS1 [sponsTeamHigh, sponsTeamLow] 0 =
      some 0 := by
  decide

theorem contains_iff_mem {l : List String} {a : String} :
    l.contains a = true ↔ a ∈ l := by
  simp

theorem map_eraseIdx {α β : Type} (f : α → β) :
    ∀ (l : List α) (i : ℕ), (l.eraseIdx i).map f = (l.map f).eraseIdx i := by
  intro l
  induction l with
  | nil => intro i; cases i <;> rfl
  | cons x rest ih =>
    intro i
    cases i with
    | zero => rfl
    | succ n =>
      simp only [List.eraseIdx, List.map_cons]
      rw [ih]

theorem nodup_not_mem_eraseIdx {α : Type} :
    ∀ (l : List α) (i : ℕ) (x : α), l.Nodup → l.get? i = some x →
      x ∉ l.eraseIdx i := by
  intro l
  induction l with
  | nil => intro i x _ h; cases i <;> cases h
  | cons y rest ih =>
    intro i x hnd hg
    cases i with
    | zero =>
      simp only [List.get?] at hg
      cases hg
      simpa using (List.nodup_cons.mp hnd).1
    | succ n =>
      simp only [List.get?] at hg
      intro hmem
      simp only [List.eraseIdx] at hmem
      rcases List.mem_cons.mp hmem with rfl | hmem2
      · exact (List.nodup_cons.mp hnd).1 (List.get?_mem hg)
      · exact ih n x (List.nodup_cons.mp hnd).2 hg hmem2

theorem find_reciprocal_spec {h : Coach} {assts : List Coach} {a : Coach}
    (hf : find_reciprocal h assts = some a) :
    a ∈ assts ∧ some a.coach_id = h.pair_id ∧ a.pair_id = some h.coach_id := by
  have hmem := List.mem_of_find?_eq_some hf
  have hp := List.find?_some hf
  simp only [Bool.and_eq_true, beq_iff_eq] at hp
  exact ⟨hmem, hp.1, hp.2⟩

theorem reciprocal_pass_installed (assts : List Coach) :
    ∀ (heads : List Coach),
      (reciprocal_pass assts heads).1.filterMap
        (fun t => t.assistant_coach.map Coach.coach_id) =
      (reciprocal_pass assts heads).2.2 := by
  intro heads
  induction heads with
  | nil => rfl
  | cons h hs ih =>
    simp only [reciprocal_pass]
    split
    · cases hfr : find_reciprocal h assts with
      | some a =>
        simp only [hfr, List.filterMap_cons, mk_pair_team, Option.map_some']
        rw [ih]
      | none => simpa [hfr] using ih
    · exact ih

theorem reciprocal_pass_used_spec (assts : List Coach) :
    ∀ (heads : List Coach) (x : String),
      x ∈ (reciprocal_pass assts heads).2.2 →
      ∃ h ∈ heads, ∃ a, find_reciprocal h assts = some a ∧ a.coach_id = x := by
  intro heads
  induction heads with
  | nil => intro x hx; cases hx
  | cons h hs ih =>
    intro x hx
    simp only [reciprocal_pass] at hx
    by_cases hp : truthy h.pair_id = true
    · rw [if_pos hp] at hx
      cases hfr : find_reciprocal h assts with
      | some a =>
        rw [hfr] at hx
        dsimp only at hx
        rcases List.mem_cons.mp hx with rfl | hx2
        · exact ⟨h, List.mem_cons_self h hs, a, hfr, rfl⟩
        · obtain ⟨h', hh', a', hfa', hid⟩ := ih x hx2
          exact ⟨h', List.mem_cons_of_mem h hh', a', hfa', hid⟩
      | none =>
        rw [hfr] at hx
        obtain ⟨h', hh', a', hfa', hid⟩ := ih x hx
        exact ⟨h', List.mem_cons_of_mem h hh', a', hfa', hid⟩
    · rw [if_neg hp] at hx
      obtain ⟨h', hh', a', hfa', hid⟩ := ih x hx
      exact ⟨h', List.mem_cons_of_mem h hh', a', hfa', hid⟩

theorem reciprocal_pass_used_nodup (assts : List Coach) :
    ∀ (heads : List Coach), (heads.map Coach.coach_id).Nodup →
      (assts.map Coach.coach_id).Nodup →
      (reciprocal_pass assts heads).2.2.Nodup := by
  intro heads
  induction heads with
  | nil => intro _ _; exact List.nodup_nil
  | cons h hs ih =>
    intro hh ha
    rw [List.map_cons] at hh
    have hh' := List.nodup_cons.mp hh
    simp only [reciprocal_pass]
    split
    · cases hfr : find_reciprocal h assts with
      | some a =>
        dsimp only
        apply List.nodup_cons.mpr
        refine ⟨?_, ih hh'.2 ha⟩
        intro hmem
        obtain ⟨h', hh'', a', hfa', hid⟩ := reciprocal_pass_used_spec assts hs a.coach_id hmem
        obtain ⟨hamem, _, hapair⟩ := find_reciprocal_spec hfr
        obtain ⟨hamem', _, hapair'⟩ := find_reciprocal_spec hfa'
        have haa : a' = a := List.inj_on_of_nodup_map ha hamem' hamem hid
        rw [haa] at hapair'
        rw [hapair] at hapair'
        have hsame : h.coach_id = h'.coach_id := Option.some.inj hapair'
        apply hh'.1
        rw [hsame]
        exact List.mem_map.mpr ⟨h', hh'', rfl⟩
      | none => exact ih hh'.2 ha
    · exact ih hh'.2 ha

theorem fallback_pass_installed (hs : List Coach) :
    ∀ (avail : List Coach), (avail.map Coach.coach_id).Nodup →
      ((fallback_pass hs avail).filterMap
        (fun t => t.assistant_coach.map Coach.coach_id)).Nodup ∧
      (∀ x ∈ (fallback_pass hs avail).filterMap
          (fun t => t.assistant_coach.map Coach.coach_id),
        x ∈ avail.map Coach.coach_id) := by
  induction hs with
  | nil =>
    intro avail _
    exact ⟨List.nodup_nil, by intro x hx; cases hx⟩
  | cons hd rest ih =>
    intro avail hnd
    simp only [fallback_pass]
    split
    next hemp =>
      simp only [List.filterMap_cons, mk_solo_team]
      exact ih avail hnd
    next hemp =>
      cases hg : avail.get? (pick_fallback_index hd avail) with
      | some a =>
        dsimp only
        have hsub : ((avail.eraseIdx (pick_fallback_index hd avail)).map
            Coach.coach_id).Nodup := by
          rw [map_eraseIdx]
          exact List.Sublist.nodup (List.eraseIdx_sublist _ _) hnd
        obtain ⟨ihn, ihs⟩ := ih (avail.eraseIdx (pick_fallback_index hd avail)) hsub
        have hga : (avail.map Coach.coach_id).get? (pick_fallback_index hd avail) =
            some a.coach_id := by
          rw [List.get?_map, hg]
          rfl
        constructor
        · simp only [List.filterMap_cons, mk_pair_team, Option.map_some']
          apply List.nodup_cons.mpr
          refine ⟨?_, ihn⟩
          intro hmem
          have hxin := ihs a.coach_id hmem
          rw [map_eraseIdx] at hxin
          exact nodup_not_mem_eraseIdx _ _ _ hnd hga hxin
        · intro x hx
          simp only [List.filterMap_cons, mk_pair_team, Option.map_some'] at hx
          rcases List.mem_cons.mp hx with rfl | hx2
          · exact List.get?_mem hga
          · have hxin := ihs x hx2
            rw [map_eraseIdx] at hxin
            exact List.Sublist.mem hxin (List.eraseIdx_sublist _ _)
      | none =>
        simp only [List.filterMap_cons, mk_solo_team]
        exact ih avail hnd

/-- C10: when all coach ids (across both input lists) are pairwise distinct,
no assistant coach is installed on two teams by seed_teams_with_coaches: the
list of installed assistant ids has no duplicate, for every outcome of the
shuffle of the remaining assistants. -/
theorem c10_assistant_installed_at_most_once (head_coaches assistant_coaches : List Coach)
    (shuffle : List Coach → List Coach)
    (hsh : ∀ l, List.Perm (shuffle l) l)
    (hids : ((head_coaches ++ assistant_coaches).map Coach.coach_id).Nodup) :
    ((seed_teams_with_coaches head_coaches assistant_coaches shuffle).filterMap
      (fun t => t.assistant_coach.map Coach.coach_id)).Nodup := by
  rw [List.map_append] at hids
  have hh : (head_coaches.map Coach.coach_id).Nodup := hids.of_append_left
  have ha : (assistant_coaches.map Coach.coach_id).Nodup := hids.of_append_right
  have havail : ((shuffle (assistant_coaches.filter (fun a =>
      !((reciprocal_pass assistant_coaches head_coaches).2.2.contains a.coach_id)))).map
        Coach.coach_id).Nodup := by
    have hperm := (hsh (assistant_coaches.filter (fun a =>
      !((reciprocal_pass assistant_coaches head_coaches).2.2.contains a.coach_id)))).map
        Coach.coach_id
    rw [hperm.nodup_iff]
    exact List.Sublist.nodup (List.Sublist.map _ (List.filter_sublist _)) ha
  show ((reciprocal_pass assistant_coaches head_coaches).1 ++
      fallback_pass
        (head_coaches.filter (fun h =>
          !((reciprocal_pass assistant_coaches head_coaches).2.1.contains h.coach_id)))
        (shuffle (assistant_coaches.filter (fun a =>
          !((reciprocal_pass assistant_coaches head_coaches).2.2.contains a.coach_id))))).filterMap
      (fun t => t.assistant_coach.map Coach.coach_id) |>.Nodup
  rw [List.filterMap_append, List.nodup_append]
  refine ⟨?_, ?_, ?_⟩
  · rw [reciprocal_pass_installed]
    exact reciprocal_pass_used_nodup assistant_coaches head_coaches hh ha
  · exact (fallback_pass_installed _ _ havail).1
  · intro x hx1 hx2
    rw [reciprocal_pass_installed] at hx1
    have hx2' := (fallback_pass_installed _ _ havail).2 x hx2
    have hperm := (hsh (assistant_coaches.filter (fun a =>
      !((reciprocal_pass assistant_coaches head_coaches).2.2.contains a.coach_id)))).map
        Coach.coach_id
    rw [hperm.mem_iff] at hx2'
    obtain ⟨a, hamem, haid⟩ := List.mem_map.mp hx2'
    have hnc : (reciprocal_pass assistant_coaches head_coaches).2.2.contains a.coach_id = false := by
      have hb := (List.mem_filter.mp hamem).2
      simpa using hb
    have hnotmem : a.coach_id ∉ (reciprocal_pass assistant_coaches head_coaches).2.2 := by
      intro hm
      rw [contains_iff_mem.mpr hm] at hnc
      cases hnc
    rw [← haid] at hx1
    exact hnotmem hx1

/-- Witness for C10 at a concrete reciprocal pair. -/
theorem c10_witness :
    ((seed_teams_with_coaches [recipHead] [recipAsst] (fun l => l)).filterMap
      (fun t => t.assistant_coach.map Coach.coach_id)).Nodup :=
  c10_assistant_installed_at_most_once [recipHead] [recipAsst] (fun l => l)
    (fun l => List.Perm.refl l) (by decide)

theorem perm_shuffle (A n1 B n2 : List String) :
    List.Perm ((A ++ n1) ++ (B ++ n2)) ((A ++ B) ++ (n1 ++ n2)) := by
  have h1 : (A ++ n1) ++ (B ++ n2) = A ++ (n1 ++ (B ++ n2)) := by
    rw [List.append_assoc]
  have h2 : List.Perm (A ++ (n1 ++ (B ++ n2))) (A ++ ((B ++ n2) ++ n1)) :=
    List.Perm.append_left A List.perm_append_comm
  have h4 : List.Perm (A ++ (B ++ (n2 ++ n1))) (A ++ (B ++ (n1 ++ n2))) :=
    List.Perm.append_left A (List.Perm.append_left B List.perm_append_comm)
  have h5 : A ++ (B ++ (n1 ++ n2)) = (A ++ B) ++ (n1 ++ n2) := by
    rw [List.append_assoc]
  rw [h1, ← h5]
  refine List.Perm.trans h2 ?_
  rw [List.append_assoc]
  exact h4

theorem tpi_cons (t : Team) (ts : List Team) :
    teamPlayerIds (t :: ts) = t.players.map Player.player_id ++ teamPlayerIds ts := rfl

theorem tpi_nil_of_empty :
    ∀ (ts : List Team), (∀ t ∈ ts, t.players = []) → teamPlayerIds ts = [] := by
  intro ts
  induction ts with
  | nil => intro _; rfl
  | cons t rest ih =>
    intro h
    rw [tpi_cons, h t (List.mem_cons_self t rest), ih (fun u hu => h u (List.mem_cons_of_mem t hu))]
    rfl

theorem reciprocal_pass_players (assts : List Coach) :
    ∀ (heads : List Coach) (t : Team), t ∈ (reciprocal_pass assts heads).1 →
      t.players = [] := by
  intro heads
  induction heads with
  | nil => intro t ht; cases ht
  | cons h hs ih =>
    intro t ht
    simp only [reciprocal_pass] at ht
    by_cases hp : truthy h.pair_id = true
    · rw [if_pos hp] at ht
      cases hfr : find_reciprocal h assts with
      | some a =>
        rw [hfr] at ht
        rcases List.mem_cons.mp ht with rfl | ht2
        · rfl
        · exact ih t ht2
      | none =>
        rw [hfr] at ht
        exact ih t ht
    · rw [if_neg hp] at ht
      exact ih t ht

theorem fallback_pass_players :
    ∀ (hs avail : List Coach) (t : Team), t ∈ fallback_pass hs avail →
      t.players = [] := by
  intro hs
  induction hs with
  | nil => intro avail t ht; cases ht
  | cons hd rest ih =>
    intro avail t ht
    simp only [fallback_pass] at ht
    split at ht
    · rcases List.mem_cons.mp ht with rfl | ht2
      · rfl
      · exact ih avail t ht2
    · cases hg : avail.get? (pick_fallback_index hd avail) with
      | some a =>
        rw [hg] at ht
        rcases List.mem_cons.mp ht with rfl | ht2
        · rfl
        · exact ih _ t ht2
      | none =>
        rw [hg] at ht
        rcases List.mem_cons.mp ht with rfl | ht2
        · rfl
        · exact ih avail t ht2

theorem seed_players_empty (head_coaches assistant_coaches : List Coach)
    (shuffle : List Coach → List Coach) :
    ∀ t ∈ seed_teams_with_coaches head_coaches assistant_coaches shuffle,
      t.players = [] := by
  intro t ht
  rcases List.mem_append.mp ht with ht | ht
  · exact reciprocal_pass_players assistant_coaches head_coaches t ht
  · exact fallback_pass_players _ _ t ht

theorem fallback_pass_length :
    ∀ (hs avail : List Coach), (fallback_pass hs avail).length = hs.length := by
  intro hs
  induction hs with
  | nil => intro avail; rfl
  | cons hd rest ih =>
    intro avail
    simp only [fallback_pass]
    split
    · simp [ih]
    · cases hg : avail.get? (pick_fallback_index hd avail) with
      | some a => simp [ih]
      | none => simp [ih]

theorem reciprocal_pass_lengths (assts : List Coach) :
    ∀ (heads : List Coach),
      (reciprocal_pass assts heads).1.length = (reciprocal_pass assts heads).2.1.length := by
  intro heads
  induction heads with
  | nil => rfl
  | cons h hs ih =>
    simp only [reciprocal_pass]
    split
    · cases hfr : find_reciprocal h assts with
      | some a => simp only [List.length_cons]; rw [ih]
      | none => exact ih
    · exact ih

theorem seed_ne_nil (head_coaches assistant_coaches : List Coach)
    (shuffle : List Coach → List Coach) (hne : head_coaches ≠ []) :
    seed_teams_with_coaches head_coaches assistant_coaches shuffle ≠ [] := by
  intro hnil
  have hsplit := List.append_eq_nil.mp hnil
  have hp1 : (reciprocal_pass assistant_coaches head_coaches).1 = [] := hsplit.1
  have hused : (reciprocal_pass assistant_coaches head_coaches).2.1 = [] := by
    have hlen := reciprocal_pass_lengths assistant_coaches head_coaches
    rw [hp1] at hlen
    exact List.length_eq_zero.mp hlen.symm
  have hfil : head_coaches.filter (fun h =>
      !((reciprocal_pass assistant_coaches head_coaches).2.1.contains h.coach_id)) =
      head_coaches := by
    apply List.filter_eq_self.mpr
    intro a _
    rw [hused]
    rfl
  have hfb := hsplit.2
  have hlenfb := fallback_pass_length (head_coaches.filter (fun h =>
      !((reciprocal_pass assistant_coaches head_coaches).2.1.contains h.coach_id)))
    (shuffle (assistant_coaches.filter (fun a =>
      !((reciprocal_pass assistant_coaches head_coaches).2.2.contains a.coach_id))))
  rw [hfb] at hlenfb
  rw [hfil] at hlenfb
  exact hne (List.length_eq_zero.mp hlenfb.symm)

theorem assign_one_coach_ids (players : List Player) (acc : Team × List String)
    (c : Option Coach) :
    ∃ new, (assign_one_coach players acc c).2 = acc.2 ++ new ∧
      (assign_one_coach players acc c).1.players.map Player.player_id =
        acc.1.players.map Player.player_id ++ new ∧
      (acc.2.Nodup → ((assign_one_coach players acc c).2).Nodup) ∧
      (∀ x ∈ new, x ∈ idsOf players) := by
  cases c with
  | none =>
    exact ⟨[], by simp [assign_one_coach], by simp [assign_one_coach],
      fun h => h, by intro x hx; cases hx⟩
  | some coach =>
    simp only [assign_one_coach]
    split
    · cases hf : players.find? (fun p => some p.player_id == coach.associated_player_id) with
      | some p =>
        dsimp only
        split
        next hmem =>
          exact ⟨[], by simp, by simp, fun h => by simpa using h, by
            intro x hx; cases hx⟩
        next hmem =>
          refine ⟨[p.player_id], rfl, ?_, ?_, ?_⟩
          · rw [add_player_players, List.map_append]
            rfl
          · intro hnd
            rw [List.nodup_append]
            refine ⟨hnd, List.nodup_singleton _, ?_⟩
            intro x hx hx2
            have hxp : x = p.player_id := List.mem_singleton.mp hx2
            rw [hxp] at hx
            exact hmem hx
          · intro x hx
            have hxp : x = p.player_id := List.mem_singleton.mp hx
            rw [hxp]
            exact List.mem_map.mpr ⟨p, List.mem_of_find?_eq_some hf, rfl⟩
      | none =>
        exact ⟨[], by simp, by simp, fun h => by simpa using h, by
          intro x hx; cases hx⟩
    · exact ⟨[], by simp, by simp, fun h => by simpa using h, by
        intro x hx; cases hx⟩

theorem acap_ids (players : List Player) :
    ∀ (teams : List Team) (asg : List String),
      ∃ new, (assign_coach_associated_players teams players asg).2 = asg ++ new ∧
        List.Perm (teamPlayerIds (assign_coach_associated_players teams players asg).1)
          (teamPlayerIds teams ++ new) ∧
        (asg.Nodup → ((assign_coach_associated_players teams players asg).2).Nodup) ∧
        (∀ x ∈ new, x ∈ idsOf players) := by
  intro teams
  induction teams with
  | nil =>
    intro asg
    exact ⟨[], by simp [assign_coach_associated_players], by
      simp [assign_coach_associated_players, teamPlayerIds], fun h => h, by
      intro x hx; cases hx⟩
  | cons t rest ih =>
    intro asg
    obtain ⟨n1, hn1a, hn1b, hn1c, hn1d⟩ :=
      assign_one_coach_ids players (t, asg) (some t.head_coach)
    obtain ⟨n2, hn2a, hn2b, hn2c, hn2d⟩ :=
      assign_one_coach_ids players
        (assign_one_coach players (t, asg) (some t.head_coach)) t.assistant_coach
    obtain ⟨n3, hn3a, hn3b, hn3c, hn3d⟩ := ih
      (assign_one_coach players
        (assign_one_coach players (t, asg) (some t.head_coach)) t.assistant_coach).2
    refine ⟨(n1 ++ n2) ++ n3, ?_, ?_, ?_, ?_⟩
    · show (assign_coach_associated_players rest players _).2 = _
      rw [hn3a, hn2a, hn1a]
      simp [List.append_assoc]
    · show List.Perm (teamPlayerIds (_ :: (assign_coach_associated_players rest players _).1)) _
      rw [tpi_cons]
      have hteam : (assign_one_coach players
          (assign_one_coach players (t, asg) (some t.head_coach))
          t.assistant_coach).1.players.map Player.player_id =
          t.players.map Player.player_id ++ (n1 ++ n2) := by
        rw [hn2b, hn1b, List.append_assoc]
      rw [hteam]
      have hperm := List.Perm.append_left (t.players.map Player.player_id ++ (n1 ++ n2)) hn3b
      refine hperm.trans ?_
      have := perm_shuffle (t.players.map Player.player_id) (n1 ++ n2)
        (teamPlayerIds rest) n3
      refine this.trans ?_
      rw [tpi_cons]
    · intro hnd
      apply hn3c
      apply hn2c
      apply hn1c
      exact hnd
    · intro x hx
      rcases List.mem_append.mp hx with hx | hx
      · rcases List.mem_append.mp hx with hx | hx
        · exact hn1d x hx
        · exact hn2d x hx
      · exact hn3d x hx

theorem get_cons_eraseIdx_perm {α : Type} :
    ∀ (l : List α) (i : ℕ) (a : α), l.get? i = some a →
      List.Perm l (a :: l.eraseIdx i) := by
  intro l
  induction l with
  | nil => intro i a h; cases i <;> cases h
  | cons x rest ih =>
    intro i a h
    cases i with
    | zero =>
      simp only [List.get?] at h
      cases h
      exact List.Perm.refl _
    | succ n =>
      simp only [List.get?] at h
      simp only [List.eraseIdx]
      have hx := List.Perm.cons x (ih n a h)
      refine hx.trans ?_
      exact List.Perm.swap a x _

theorem fill_go_ids (m : ℕ) :
    ∀ (fuel : ℕ) (t : Team) (un : List Player) (rand : ℕ → ℕ) (k : ℕ),
      List.Perm
        ((fill_one_team_go m fuel t un rand k).1.players.map Player.player_id ++
          idsOf (fill_one_team_go m fuel t un rand k).2.1)
        (t.players.map Player.player_id ++ idsOf un) := by
  intro fuel
  induction fuel with
  | zero => intro t un rand k; exact List.Perm.refl _
  | succ n ih =>
    intro t un rand k
    rw [fill_one_team_go]
    split
    next hc =>
      have hgp : un.get? (rand k % un.length) =
          some (un.get ⟨rand k % un.length, Nat.mod_lt _ hc.2⟩) := by
        rw [List.get?_eq_getElem?]
        exact List.getElem?_eq_getElem _
      have hunperm : List.Perm un
          (un.get ⟨rand k % un.length, Nat.mod_lt _ hc.2⟩ ::
            un.eraseIdx (rand k % un.length)) :=
        get_cons_eraseIdx_perm un _ _ hgp
      refine (ih _ _ rand _).trans ?_
      rw [add_player_players, List.map_append]
      simp only [List.map_cons, List.map_nil]
      have hassoc : (t.players.map Player.player_id ++
          [(un.get ⟨rand k % un.length, Nat.mod_lt _ hc.2⟩).player_id]) ++
          idsOf (un.eraseIdx (rand k % un.length)) =
          t.players.map Player.player_id ++
          ((un.get ⟨rand k % un.length, Nat.mod_lt _ hc.2⟩).player_id ::
            idsOf (un.eraseIdx (rand k % un.length))) := by
        rw [List.append_assoc]
        rfl
      rw [hassoc]
      apply List.Perm.append_left
      have := (hunperm.map Player.player_id).symm
      simpa [idsOf] using this
    next hc => exact List.Perm.refl _

theorem fill_ids :
    ∀ (teams : List Team) (un : List Player) (rand : ℕ → ℕ) (k m : ℕ),
      List.Perm
        (teamPlayerIds (fill_teams_to_minimum teams un rand k m).1 ++
          idsOf (fill_teams_to_minimum teams un rand k m).2.1)
        (teamPlayerIds teams ++ idsOf un) := by
  intro teams
  induction teams with
  | nil => intro un rand k m; exact List.Perm.refl _
  | cons t rest ih =>
    intro un rand k m
    simp only [fill_teams_to_minimum]
    rw [tpi_cons, tpi_cons]
    have hih := ih (fill_one_team m t un rand k).2.1 rand
      (fill_one_team m t un rand k).2.2 m
    have hgo : List.Perm
        ((fill_one_team m t un rand k).1.players.map Player.player_id ++
          idsOf (fill_one_team m t un rand k).2.1)
        (t.players.map Player.player_id ++ idsOf un) :=
      fill_go_ids m un.length t un rand k
    rw [List.append_assoc]
    refine List.Perm.trans (List.Perm.append_left _ hih) ?_
    refine List.Perm.trans (List.Perm.append_left _ List.perm_append_comm) ?_
    rw [← List.append_assoc]
    refine List.Perm.trans (List.Perm.append_right _ hgo) ?_
    rw [List.append_assoc]
    refine List.Perm.trans (List.Perm.append_left _ List.perm_append_comm) ?_
    rw [← List.append_assoc]

theorem tpi_set :
    ∀ (teams : List Team) (j : ℕ) (tj : Team) (p : Player),
      teams.get? j = some tj →
      List.Perm (teamPlayerIds (teams.set j (add_player_to_team p tj)))
        (teamPlayerIds teams ++ [p.player_id]) := by
  intro teams
  induction teams with
  | nil => intro j tj p hj; cases j <;> cases hj
  | cons t0 rest ih =>
    intro j tj p hj
    cases j with
    | zero =>
      simp only [List.get?] at hj
      cases hj
      simp only [List.set, tpi_cons]
      rw [add_player_players, List.map_append]
      simp only [List.map_cons, List.map_nil]
      rw [List.append_assoc]
      refine List.Perm.trans (List.Perm.append_left _ List.perm_append_comm) ?_
      rw [← List.append_assoc]
    | succ n =>
      simp only [List.get?] at hj
      simp only [List.set, tpi_cons]
      refine List.Perm.trans (List.Perm.append_left _ (ih n tj p hj)) ?_
      rw [← List.append_assoc]

theorem TB.assign_loop_ids :
    ∀ (l : List Player) (teams : List Team) (rand : ℕ → ℕ) (k : ℕ) (res : List Team),
      TB.assign_loop teams l rand k = some res →
      List.Perm (teamPlayerIds res) (teamPlayerIds teams ++ idsOf l) := by
  intro l
  induction l with
  | nil =>
    intro teams rand k res h
    simp only [TB.assign_loop] at h
    cases h
    simp [idsOf]
  | cons p rest ih =>
    intro teams rand k res h
    simp only [TB.assign_loop] at h
    cases hfb : TB.find_best_team_for_player p teams (rand k) with
    | none => rw [hfb] at h; cases h
    | some j =>
      rw [hfb] at h
      dsimp only at h
      cases hj : teams.get? j with
      | none => rw [hj] at h; cases h
      | some tj =>
        rw [hj] at h
        dsimp only at h
        have hperm := ih _ rand _ res h
        refine hperm.trans ?_
        refine List.Perm.trans (List.Perm.append_right _ (tpi_set teams j tj p hj)) ?_
        rw [List.append_assoc]
        rfl

theorem set_ne_nil {teams : List Team} (hne : teams ≠ []) (j : ℕ) (t : Team) :
    teams.set j t ≠ [] := by
  intro hnil
  have hlen := List.length_set teams j t
  rw [hnil] at hlen
  exact hne (List.length_eq_zero.mp hlen.symm)

theorem TB.assign_loop_some :
    ∀ (l : List Player) (teams : List Team) (rand : ℕ → ℕ) (k : ℕ),
      teams ≠ [] → ∃ res, TB.assign_loop teams l rand k = some res := by
  intro l
  induction l with
  | nil => intro teams rand k _; exact ⟨teams, rfl⟩
  | cons p rest ih =>
    intro teams rand k hne
    obtain ⟨i, t, hfb, ht⟩ := TB.find_best_some p teams (rand k) hne
    obtain ⟨res, hres⟩ := ih (teams.set i (add_player_to_team p t)) rand (k + 1)
      (set_ne_nil hne i _)
    refine ⟨res, ?_⟩
    simp only [TB.assign_loop, hfb]
    rw [ht]
    exact hres

theorem TB.assign_remaining_ids (teams : List Team) (un : List Player)
    (rand : ℕ → ℕ) (k : ℕ) (res : List Team)
    (h : TB.assign_remaining_players_by_skill teams un rand k = some res) :
    List.Perm (teamPlayerIds res) (teamPlayerIds teams ++ idsOf un) := by
  have h1 := TB.assign_loop_ids (sort_players_desc un) teams rand k res h
  refine h1.trans ?_
  apply List.Perm.append_left
  exact (sort_players_desc_perm un).map Player.player_id

theorem TB.assign_remaining_some (teams : List Team) (un : List Player)
    (rand : ℕ → ℕ) (k : ℕ) (hne : teams ≠ []) :
    ∃ res, TB.assign_remaining_players_by_skill teams un rand k = some res :=
  TB.assign_loop_some (sort_players_desc un) teams rand k hne

theorem idsOf_filter_pred (pl : List Player) (q : String → Bool) :
    idsOf (pl.filter (fun p => q p.player_id)) = (idsOf pl).filter q := by
  induction pl with
  | nil => rfl
  | cons p rest ih =>
    simp only [idsOf] at ih ⊢
    rw [List.filter_cons, List.map_cons, List.filter_cons]
    by_cases hq : q p.player_id = true
    · rw [if_pos hq, if_pos hq, List.map_cons, ih]
    · rw [if_neg hq, if_neg hq, ih]

/-- C1 (amended): with at least one head coach, the package pipeline run on
the seeded teams completes and every player of the input map appears on
exactly one team: the assigned ids across all teams are a permutation of the
input ids, so each input player id occurs exactly once — no duplicates within
or across teams, no omissions.  The claim's size condition alone does not
suffice: zero coaches satisfy it and the run then fails (see the zero-coach
analysis), so the amended statement requires a non-empty head-coach list. -/
theorem c1_every_player_on_exactly_one_team
    (head_coaches assistant_coaches : List Coach)
    (shuffle : List Coach → List Coach) (players : List Player) (n : ℕ)
    (rand : ℕ → ℕ) (hheads : head_coaches ≠ [])
    (hnd : (players.map Player.player_id).Nodup)
    (hsc : ∀ p ∈ players, p.skill_score.isSome = true) :
    ∃ res, TB.assign_players_to_teams
        (seed_teams_with_coaches head_coaches assistant_coaches shuffle)
        players n rand = some res ∧
      List.Perm (teamPlayerIds res) (idsOf players) ∧
      ∀ p ∈ players, (teamPlayerIds res).count p.player_id = 1 := by
  have htne : seed_teams_with_coaches head_coaches assistant_coaches shuffle ≠ [] :=
    seed_ne_nil _ _ _ hheads
  have htpi : teamPlayerIds (seed_teams_with_coaches head_coaches assistant_coaches shuffle) = [] :=
    tpi_nil_of_empty _ (seed_players_empty _ _ _)
  obtain ⟨new1, ha1, ha2, ha3, ha4⟩ := acap_ids players
    (seed_teams_with_coaches head_coaches assistant_coaches shuffle) []
  have hasg : (assign_coach_associated_players
      (seed_teams_with_coaches head_coaches assistant_coaches shuffle) players []).2 = new1 := by
    rw [ha1]
    rfl
  have hnodup1 : new1.Nodup := by
    have h := ha3 List.nodup_nil
    rw [hasg] at h
    exact h
  have ht1ne : (assign_coach_associated_players
      (seed_teams_with_coaches head_coaches assistant_coaches shuffle) players []).1 ≠ [] := by
    intro hnil
    have hlen := acap_length players
      (seed_teams_with_coaches head_coaches assistant_coaches shuffle) []
    rw [hnil] at hlen
    exact htne (List.length_eq_zero.mp hlen.symm)
  have hfne : (fill_teams_to_minimum
      (assign_coach_associated_players
        (seed_teams_with_coaches head_coaches assistant_coaches shuffle) players []).1
      (players.filter (fun p => p.player_id ∉ (assign_coach_associated_players
        (seed_teams_with_coaches head_coaches assistant_coaches shuffle) players []).2))
      rand 0 2).1 ≠ [] := by
    intro hnil
    have hlen := fill_length
      (assign_coach_associated_players
        (seed_teams_with_coaches head_coaches assistant_coaches shuffle) players []).1
      (players.filter (fun p => p.player_id ∉ (assign_coach_associated_players
        (seed_teams_with_coaches head_coaches assistant_coaches shuffle) players []).2))
      rand 0 2
    rw [hnil] at hlen
    exact ht1ne (List.length_eq_zero.mp hlen.symm)
  obtain ⟨res, hres⟩ := TB.assign_remaining_some
    (fill_teams_to_minimum
      (assign_coach_associated_players
        (seed_teams_with_coaches head_coaches assistant_coaches shuffle) players []).1
      (players.filter (fun p => p.player_id ∉ (assign_coach_associated_players
        (seed_teams_with_coaches head_coaches assistant_coaches shuffle) players []).2))
      rand 0 2).1
    (fill_teams_to_minimum
      (assign_coach_associated_players
        (seed_teams_with_coaches head_coaches assistant_coaches shuffle) players []).1
      (players.filter (fun p => p.player_id ∉ (assign_coach_associated_players
        (seed_teams_with_coaches head_coaches assistant_coaches shuffle) players []).2))
      rand 0 2).2.1
    rand
    (fill_teams_to_minimum
      (assign_coach_associated_players
        (seed_teams_with_coaches head_coaches assistant_coaches shuffle) players []).1
      (players.filter (fun p => p.player_id ∉ (assign_coach_associated_players
        (seed_teams_with_coaches head_coaches assistant_coaches shuffle) players []).2))
      rand 0 2).2.2
    hfne
  have hperm : List.Perm (teamPlayerIds res) (idsOf players) := by
    have h1 := TB.assign_remaining_ids _ _ rand _ res hres
    have h2 := fill_ids
      (assign_coach_associated_players
        (seed_teams_with_coaches head_coaches assistant_coaches shuffle) players []).1
      (players.filter (fun p => p.player_id ∉ (assign_coach_associated_players
        (seed_teams_with_coaches head_coaches assistant_coaches shuffle) players []).2))
      rand 0 2
    have h3 : List.Perm (teamPlayerIds (assign_coach_associated_players
        (seed_teams_with_coaches head_coaches assistant_coaches shuffle) players []).1) new1 := by
      refine ha2.trans ?_
      rw [htpi]
      exact List.Perm.refl _
    have hfilids : idsOf (players.filter (fun p => p.player_id ∉ (assign_coach_associated_players
        (seed_teams_with_coaches head_coaches assistant_coaches shuffle) players []).2)) =
        (idsOf players).filter (fun s => decide (s ∉ new1)) := by
      have hq := idsOf_filter_pred players
        (fun s => decide (s ∉ (assign_coach_associated_players
          (seed_teams_with_coaches head_coaches assistant_coaches shuffle) players []).2))
      have hq2 : (idsOf players).filter (fun s => decide (s ∉ (assign_coach_associated_players
          (seed_teams_with_coaches head_coaches assistant_coaches shuffle) players []).2)) =
          (idsOf players).filter (fun s => decide (s ∉ new1)) := by
        simp only [hasg]
      exact hq.trans hq2
    have hsplit : List.Perm (new1 ++ (idsOf players).filter (fun s => decide (s ∉ new1)))
        (idsOf players) := by
      have hnd' : (idsOf players).Nodup := hnd
      have hmemperm : List.Perm ((idsOf players).filter (fun s => decide (s ∈ new1))) new1 := by
        rw [List.perm_ext_iff_of_nodup (List.Nodup.filter _ hnd') hnodup1]
        intro a
        constructor
        · intro ha
          have h := List.mem_filter.mp ha
          simpa using h.2
        · intro ha
          apply List.mem_filter.mpr
          refine ⟨ha4 a ha, by simpa using ha⟩
      have happ := List.filter_append_perm (fun s => decide (s ∈ new1)) (idsOf players)
      have hnegeq : (fun s => !(decide (s ∈ new1))) = (fun s => decide (s ∉ new1)) := by
        funext s
        simp
      rw [hnegeq] at happ
      refine List.Perm.trans ?_ happ
      exact List.Perm.append_right _ hmemperm.symm
    refine h1.trans ?_
    refine h2.trans ?_
    rw [hfilids]
    refine List.Perm.trans (List.Perm.append_right _ h3) ?_
    exact hsplit
  refine ⟨res, hres, hperm, ?_⟩
  intro p hp
  rw [hperm.count_eq]
  exact List.count_eq_one_of_mem hnd (List.mem_map.mpr ⟨p, hp, rfl⟩)

/-- Witness for C1 (amended) at one head coach and two scored players. -/
theorem c1_witness :
    ∃ res, TB.assign_players_to_teams
        (seed_teams_with_coaches [recipHead] [] (fun l => l))
        [scoredPlayer1, scoredPlayer2] 2 (fun _ => 0) = some res ∧
      List.Perm (teamPlayerIds res) (idsOf [scoredPlayer1, scoredPlayer2]) ∧
      ∀ p ∈ [scoredPlayer1, scoredPlayer2],
        (teamPlayerIds res).count p.player_id = 1 :=
  c1_every_player_on_exactly_one_team [recipHead] [] (fun l => l)
    [scoredPlayer1, scoredPlayer2] 2 (fun _ => 0)
    (by decide) (by decide) (by decide)

/-- C1 counterexample: the claim's size condition (player count at least coach
count times minimum team size) is satisfied by zero coaches and one player,
yet the pipeline run fails (random.choice over no teams raises) and the
player ends on no team, so the condition alone does not give the partition. -/
theorem c1_counterexample :
    (0 : ℕ) * 2 ≤ 1 ∧
    TB.assign_players_to_teams (seed_teams_with_coaches [] [] (fun l => l))
      [samplePlayerA] 2 (fun _ => 0) = none := by
  constructor
  · decide
  · rfl

theorem find_player_eq :
    ∀ (players : List Player), (players.map Player.player_id).Nodup →
      ∀ p ∈ players, players.find? (fun q => q.player_id == p.player_id) = some p := by
  intro players
  induction players with
  | nil => intro _ p hp; cases hp
  | cons x rest ih =>
    intro hnd p hp
    rw [List.map_cons] at hnd
    have hnd' := List.nodup_cons.mp hnd
    rw [List.find?]
    by_cases hx : (x.player_id == p.player_id) = true
    · have hxid : x.player_id = p.player_id := by simpa using hx
      rcases List.mem_cons.mp hp with rfl | hp2
      · rw [hx]
      · exfalso
        apply hnd'.1
        rw [hxid]
        exact List.mem_map.mpr ⟨p, hp2, rfl⟩
    · rw [Bool.eq_false_iff.mpr hx]
      rcases List.mem_cons.mp hp with rfl | hp2
      · exact absurd (by simp) hx
      · exact ih hnd'.2 p hp2

theorem group_players_mem_ids {players : List Player} {asg : List String}
    {g : List String} {q : Player} (h : q ∈ Single.group_players players asg g) :
    q.player_id ∈ g ∧ q.player_id ∉ asg := by
  obtain ⟨pid, hpid, hfind⟩ := List.mem_filterMap.mp h
  have hmem := List.mem_filter.mp hpid
  have hq := List.find?_some hfind
  have hqid : q.player_id = pid := by simpa using hq
  rw [hqid]
  refine ⟨hmem.1, ?_⟩
  simpa using hmem.2

theorem mem_group_players {players : List Player} {asg : List String}
    {g : List String} {p : Player}
    (hnd : (players.map Player.player_id).Nodup) (hp : p ∈ players)
    (hg : p.player_id ∈ g) (hasg : p.player_id ∉ asg) :
    p ∈ Single.group_players players asg g := by
  apply List.mem_filterMap.mpr
  refine ⟨p.player_id, ?_, ?_⟩
  · apply List.mem_filter.mpr
    exact ⟨hg, by simpa using hasg⟩
  · exact find_player_eq players hnd p hp

theorem foldl_key_min_attained :
    ∀ (rest : List Team) (a : ℚ × ℕ),
      (rest.foldl (fun a t => if Single.key_lt (Single.team_key t) a
        then Single.team_key t else a) a) = a ∨
      (rest.foldl (fun a t => if Single.key_lt (Single.team_key t) a
        then Single.team_key t else a) a) ∈ rest.map Single.team_key := by
  intro rest
  induction rest with
  | nil => intro a; left; rfl
  | cons t ts ih =>
    intro a
    rw [List.foldl_cons]
    by_cases hlt : Single.key_lt (Single.team_key t) a = true
    · rw [if_pos hlt]
      rcases ih (Single.team_key t) with h | h
      · right; rw [h]; exact List.mem_cons_self _ _
      · right; exact List.mem_cons_of_mem _ h
    · rw [if_neg hlt]
      rcases ih a with h | h
      · left; exact h
      · right; exact List.mem_cons_of_mem _ h

theorem single_selector_some (p : Player) (teams : List Team) (r : ℕ)
    (hne : teams ≠ []) :
    ∃ i, Single.find_best_team_for_player p teams r = some i ∧ i < teams.length := by
  cases teams with
  | nil => exact absurd rfl hne
  | cons t0 rest =>
    have hbest := foldl_key_min_attained rest (Single.team_key t0)
    have hattained : ∃ it ∈ (t0 :: rest).enum, Single.team_key it.2 =
        (rest.foldl (fun a t => if Single.key_lt (Single.team_key t) a
          then Single.team_key t else a) (Single.team_key t0)) := by
      rcases hbest with h | h
      · refine ⟨(0, t0), ?_, h.symm⟩
        apply get?_mem_enum
        rfl
      · obtain ⟨t, ht, hkey⟩ := List.mem_map.mp h
        obtain ⟨n, hn⟩ := List.mem_iff_get?.mp ht
        refine ⟨(n + 1, t), ?_, hkey⟩
        apply get?_mem_enum
        simpa using hn
    obtain ⟨it, hitmem, hitkey⟩ := hattained
    have hcne : (((t0 :: rest).enum.filter (fun it => Single.team_key it.2 =
        (rest.foldl (fun a t => if Single.key_lt (Single.team_key t) a
          then Single.team_key t else a) (Single.team_key t0)))).map Prod.fst) ≠ [] := by
      apply List.ne_nil_of_mem (a := it.1)
      apply List.mem_map.mpr
      exact ⟨it, List.mem_filter.mpr ⟨hitmem, by simpa using hitkey⟩, rfl⟩
    obtain ⟨i, hi, himem⟩ := get?_mod_mem hcne r
    refine ⟨i, ?_, ?_⟩
    · show (((t0 :: rest).enum.filter _).map Prod.fst).get? _ = some i
      exact hi
    · obtain ⟨it', hit', hit'1⟩ := List.mem_map.mp himem
      have := mem_enum_get? (List.mem_filter.mp hit').1
      rw [hit'1] at this
      exact get?_lt_length this

theorem add_to_group_keys (groups : List ((Option String × Option String) × List String))
    (k : Option String × Option String) (pid : String) :
    ((Single.add_to_group groups k pid).map Prod.fst = groups.map Prod.fst ∧
      k ∈ groups.map Prod.fst) ∨
    ((Single.add_to_group groups k pid).map Prod.fst = groups.map Prod.fst ++ [k] ∧
      k ∉ groups.map Prod.fst) := by
  induction groups with
  | nil => right; exact ⟨rfl, by simp⟩
  | cons g gs ih =>
    rw [Single.add_to_group]
    by_cases h : g.1 = k
    · left
      rw [if_pos h]
      exact ⟨by simp, by rw [List.map_cons]; exact h ▸ List.mem_cons_self _ _⟩
    · rw [if_neg h]
      rcases ih with ⟨heq, hin⟩ | ⟨heq, hout⟩
      · left
        exact ⟨by simp [heq], List.mem_cons_of_mem _ hin⟩
      · right
        refine ⟨by simp [heq], ?_⟩
        rw [List.map_cons]
        intro hc
        rcases List.mem_cons.mp hc with hc | hc
        · exact h hc.symm
        · exact hout hc

theorem add_to_group_sound (groups : List ((Option String × Option String) × List String))
    (k : Option String × Option String) (pid : String) :
    ∀ e ∈ Single.add_to_group groups k pid, ∀ x ∈ e.2,
      (∃ e0 ∈ groups, e0.1 = e.1 ∧ x ∈ e0.2) ∨ (x = pid ∧ e.1 = k) := by
  induction groups with
  | nil =>
    intro e he x hx
    rw [Single.add_to_group] at he
    rcases List.mem_singleton.mp he with rfl
    right
    exact ⟨List.mem_singleton.mp hx, rfl⟩
  | cons g gs ih =>
    intro e he x hx
    rw [Single.add_to_group] at he
    by_cases h : g.1 = k
    · rw [if_pos h] at he
      rcases List.mem_cons.mp he with rfl | he2
      · rcases List.mem_append.mp hx with hx1 | hx2
        · exact Or.inl ⟨g, List.mem_cons_self _ _, rfl, hx1⟩
        · exact Or.inr ⟨List.mem_singleton.mp hx2, h⟩
      · exact Or.inl ⟨e, List.mem_cons_of_mem _ he2, rfl, hx⟩
    · rw [if_neg h] at he
      rcases List.mem_cons.mp he with rfl | he2
      · exact Or.inl ⟨e, List.mem_cons_self _ _, rfl, hx⟩
      · rcases ih e he2 x hx with ⟨e0, he0, hk0, hx0⟩ | hr
        · exact Or.inl ⟨e0, List.mem_cons_of_mem _ he0, hk0, hx0⟩
        · exact Or.inr hr

theorem add_to_group_complete_old
    (groups : List ((Option String × Option String) × List String))
    (k : Option String × Option String) (pid : String) :
    ∀ e ∈ groups, ∃ e2 ∈ Single.add_to_group groups k pid,
      e2.1 = e.1 ∧ ∀ x ∈ e.2, x ∈ e2.2 := by
  induction groups with
  | nil => intro e he; cases he
  | cons g gs ih =>
    intro e he
    rw [Single.add_to_group]
    by_cases h : g.1 = k
    · rw [if_pos h]
      rcases List.mem_cons.mp he with rfl | he2
      · exact ⟨(e.1, e.2 ++ [pid]), List.mem_cons_self _ _, rfl,
          fun x hx => List.mem_append_left _ hx⟩
      · exact ⟨e, List.mem_cons_of_mem _ he2, rfl, fun x hx => hx⟩
    · rw [if_neg h]
      rcases List.mem_cons.mp he with rfl | he2
      · exact ⟨e, List.mem_cons_self _ _, rfl, fun x hx => hx⟩
      · obtain ⟨e2, he2', hk2, hx2⟩ := ih e he2
        exact ⟨e2, List.mem_cons_of_mem _ he2', hk2, hx2⟩

theorem add_to_group_complete_new
    (groups : List ((Option String × Option String) × List String))
    (k : Option String × Option String) (pid : String) :
    ∃ e ∈ Single.add_to_group groups k pid, e.1 = k ∧ pid ∈ e.2 := by
  induction groups with
  | nil =>
    exact ⟨(k, [pid]), List.mem_singleton.mpr rfl, rfl, List.mem_singleton.mpr rfl⟩
  | cons g gs ih =>
    rw [Single.add_to_group]
    by_cases h : g.1 = k
    · rw [if_pos h]
      exact ⟨(g.1, g.2 ++ [pid]), List.mem_cons_self _ _, h,
        List.mem_append_right _ (List.mem_singleton.mpr rfl)⟩
    · rw [if_neg h]
      obtain ⟨e, he, hk, hp⟩ := ih
      exact ⟨e, List.mem_cons_of_mem _ he, hk, hp⟩

theorem add_to_group_nodup
    (groups : List ((Option String × Option String) × List String))
    (k : Option String × Option String) (pid : String)
    (h1 : ∀ e ∈ groups, e.2.Nodup) (h2 : ∀ e ∈ groups, pid ∉ e.2) :
    ∀ e ∈ Single.add_to_group groups k pid, e.2.Nodup := by
  induction groups with
  | nil =>
    intro e he
    rcases List.mem_singleton.mp he with rfl
    exact List.nodup_singleton _
  | cons g gs ih =>
    intro e he
    rw [Single.add_to_group] at he
    by_cases h : g.1 = k
    · rw [if_pos h] at he
      rcases List.mem_cons.mp he with rfl | he2
      · show (g.2 ++ [pid]).Nodup
        apply List.Nodup.append (h1 g (List.mem_cons_self _ _)) (List.nodup_singleton _)
        intro a ha hb
        rcases List.mem_singleton.mp hb with rfl
        exact h2 g (List.mem_cons_self _ _) ha
      · exact h1 e (List.mem_cons_of_mem _ he2)
    · rw [if_neg h] at he
      rcases List.mem_cons.mp he with rfl | he2
      · exact h1 e (List.mem_cons_self _ _)
      · exact ih (fun e' he' => h1 e' (List.mem_cons_of_mem _ he'))
          (fun e' he' => h2 e' (List.mem_cons_of_mem _ he')) e he2

theorem groups_entry_unique
    (groups : List ((Option String × Option String) × List String))
    (hnd : (groups.map Prod.fst).Nodup) :
    ∀ e1 ∈ groups, ∀ e2 ∈ groups, e1.1 = e2.1 → e1 = e2 := by
  intro e1 h1 e2 h2 heq
  exact List.inj_on_of_nodup_map hnd h1 h2 heq

theorem family_groups_fold_spec :
    ∀ (rest processed : List Player)
      (groups : List ((Option String × Option String) × List String)),
      ((processed ++ rest).map Player.player_id).Nodup →
      (groups.map Prod.fst).Nodup →
      (∀ e ∈ groups, ∀ pid ∈ e.2,
        ∃ q ∈ processed, q.player_id = pid ∧ familyKey q = e.1 ∧ q.siblings ≠ []) →
      (∀ q ∈ processed, q.siblings ≠ [] →
        ∃ e ∈ groups, e.1 = familyKey q ∧ q.player_id ∈ e.2) →
      (∀ e ∈ groups, e.2.Nodup) →
      (((rest.foldl (fun groups p => if p.siblings.isEmpty then groups
          else Single.add_to_group groups (familyKey p) p.player_id) groups).map
            Prod.fst).Nodup ∧
       (∀ e ∈ rest.foldl (fun groups p => if p.siblings.isEmpty then groups
          else Single.add_to_group groups (familyKey p) p.player_id) groups,
          ∀ pid ∈ e.2, ∃ q ∈ processed ++ rest,
            q.player_id = pid ∧ familyKey q = e.1 ∧ q.siblings ≠ []) ∧
       (∀ q ∈ processed ++ rest, q.siblings ≠ [] →
          ∃ e ∈ rest.foldl (fun groups p => if p.siblings.isEmpty then groups
            else Single.add_to_group groups (familyKey p) p.player_id) groups,
            e.1 = familyKey q ∧ q.player_id ∈ e.2) ∧
       (∀ e ∈ rest.foldl (fun groups p => if p.siblings.isEmpty then groups
          else Single.add_to_group groups (familyKey p) p.player_id) groups,
          e.2.Nodup)) := by
  intro rest
  induction rest with
  | nil =>
    intro processed groups hnd hkeys hsound hcomplete hnodups
    rw [List.foldl_nil]
    rw [List.append_nil]
    exact ⟨hkeys, hsound, hcomplete, hnodups⟩
  | cons p rest ih =>
    intro processed groups hnd hkeys hsound hcomplete hnodups
    rw [List.foldl_cons]
    have hassoc : processed ++ p :: rest = (processed ++ [p]) ++ rest := by
      rw [List.append_cons]
    by_cases hemp : p.siblings.isEmpty = true
    · have hpnil : p.siblings = [] := by simpa using hemp
      rw [if_pos hemp, hassoc]
      apply ih (processed ++ [p]) groups
      · rw [← hassoc]; exact hnd
      · exact hkeys
      · intro e he pid hpid
        obtain ⟨q, hq, h1, h2, h3⟩ := hsound e he pid hpid
        exact ⟨q, List.mem_append_left _ hq, h1, h2, h3⟩
      · intro q hq hqs
        rcases List.mem_append.mp hq with hq1 | hq2
        · exact hcomplete q hq1 hqs
        · rcases List.mem_singleton.mp hq2 with rfl
          exact absurd hpnil hqs
      · exact hnodups
    · have hpne : p.siblings ≠ [] := by simpa using hemp
      have hpid_new : p.player_id ∉ processed.map Player.player_id := by
        intro hc
        have h1 : (processed.map Player.player_id ++
            (p :: rest).map Player.player_id).Nodup := by
          rw [← List.map_append]; exact hnd
        have h2 := (List.nodup_append.mp h1).2.2
        exact h2 hc (by rw [List.map_cons]; exact List.mem_cons_self _ _)
      rw [if_neg hemp, hassoc]
      apply ih (processed ++ [p]) (Single.add_to_group groups (familyKey p) p.player_id)
      · rw [← hassoc]; exact hnd
      · rcases add_to_group_keys groups (familyKey p) p.player_id with ⟨heq, _⟩ | ⟨heq, hout⟩
        · rw [heq]; exact hkeys
        · rw [heq]
          apply List.Nodup.append hkeys (List.nodup_singleton _)
          intro a ha hb
          rcases List.mem_singleton.mp hb with rfl
          exact hout ha
      · intro e he pid hpid
        rcases add_to_group_sound groups (familyKey p) p.player_id e he pid hpid with
          ⟨e0, he0, hk0, hx0⟩ | ⟨rfl, hk⟩
        · obtain ⟨q, hq, h1, h2, h3⟩ := hsound e0 he0 pid hx0
          exact ⟨q, List.mem_append_left _ hq, h1, hk0 ▸ h2, h3⟩
        · exact ⟨p, List.mem_append_right _ (List.mem_singleton.mpr rfl), rfl, hk.symm, hpne⟩
      · intro q hq hqs
        rcases List.mem_append.mp hq with hq1 | hq2
        · obtain ⟨e, he, hk, hx⟩ := hcomplete q hq1 hqs
          obtain ⟨e2, he2, hk2, hsub⟩ := add_to_group_complete_old groups (familyKey p)
            p.player_id e he
          exact ⟨e2, he2, hk2.trans hk, hsub _ hx⟩
        · rcases List.mem_singleton.mp hq2 with rfl
          obtain ⟨e, he, hk, hx⟩ := add_to_group_complete_new groups (familyKey q) q.player_id
          exact ⟨e, he, hk, hx⟩
      · apply add_to_group_nodup groups (familyKey p) p.player_id hnodups
        intro e he hc
        obtain ⟨q, hq, h1, _, _⟩ := hsound e he p.player_id hc
        exact hpid_new (h1 ▸ List.mem_map.mpr ⟨q, hq, rfl⟩)

theorem family_groups_spec (players : List Player)
    (hnd : (players.map Player.player_id).Nodup) :
    (((Single.family_groups players).map Prod.fst).Nodup ∧
     (∀ e ∈ Single.family_groups players, ∀ pid ∈ e.2,
       ∃ q ∈ players, q.player_id = pid ∧ familyKey q = e.1 ∧ q.siblings ≠ []) ∧
     (∀ q ∈ players, q.siblings ≠ [] →
       ∃ e ∈ Single.family_groups players, e.1 = familyKey q ∧ q.player_id ∈ e.2) ∧
     (∀ e ∈ Single.family_groups players, e.2.Nodup)) := by
  have h := family_groups_fold_spec players [] [] (by simpa using hnd)
    (by simp) (by simp) (by simp) (by simp)
  rw [List.nil_append] at h
  exact h

theorem add_group_spec :
    ∀ (gps : List Player) (teams : List Team) (i : ℕ) (asg : List String) (ti : Team),
      teams.get? i = some ti →
      ((Single.add_group_to_team gps teams i asg).1.length = teams.length ∧
       (Single.add_group_to_team gps teams i asg).2 = asg ++ gps.map Player.player_id ∧
       (∃ ti', (Single.add_group_to_team gps teams i asg).1.get? i = some ti' ∧
         ti'.players = ti.players ++ gps) ∧
       (∀ j tj, j ≠ i → teams.get? j = some tj →
         (Single.add_group_to_team gps teams i asg).1.get? j = some tj)) := by
  intro gps
  induction gps with
  | nil =>
    intro teams i asg ti hget
    refine ⟨rfl, by simp [Single.add_group_to_team], ⟨ti, hget, by simp⟩, ?_⟩
    intro j tj _ hj
    exact hj
  | cons p rest ih =>
    intro teams i asg ti hget
    have hilen : i < teams.length := get?_lt_length hget
    have hstep : Single.add_group_to_team (p :: rest) teams i asg =
        Single.add_group_to_team rest (teams.set i (add_player_to_team p ti)) i
          (asg ++ [p.player_id]) := by
      show ((p :: rest).foldl _ (teams, asg)) = _
      rw [List.foldl_cons]
      show (rest.foldl _ (match (teams, asg).1.get? i with
        | some t => ((teams, asg).1.set i (add_player_to_team p t),
            (teams, asg).2 ++ [p.player_id])
        | none => (teams, asg))) = _
      rw [show (teams, asg).1 = teams from rfl, hget]
      rfl
    rw [hstep]
    have hget2 : (teams.set i (add_player_to_team p ti)).get? i =
        some (add_player_to_team p ti) := by
      rw [List.get?_eq_getElem?, List.getElem?_set_self hilen]
    obtain ⟨hlen, hasg, ⟨ti', hti', hpl⟩, hothers⟩ :=
      ih (teams.set i (add_player_to_team p ti)) i (asg ++ [p.player_id])
        (add_player_to_team p ti) hget2
    refine ⟨by rw [hlen, List.length_set], ?_, ⟨ti', hti', ?_⟩, ?_⟩
    · rw [hasg, List.map_cons, List.append_assoc]
      rfl
    · rw [hpl, add_player_players, List.append_assoc]
      rfl
    · intro j tj hji hj
      apply hothers j tj hji
      rw [List.get?_eq_getElem?, List.getElem?_set_ne (fun h => hji h.symm),
        ← List.get?_eq_getElem?]
      exact hj

theorem sibling_loop_append (players : List Player) (rand : ℕ → ℕ) :
    ∀ (gs1 gs2 : List (List String)) (teams : List Team) (asg : List String) (k : ℕ),
      Single.sibling_groups_loop players rand (gs1 ++ gs2) teams asg k =
        match Single.sibling_groups_loop players rand gs1 teams asg k with
        | some (t, a, k') => Single.sibling_groups_loop players rand gs2 t a k'
        | none => none := by
  intro gs1
  induction gs1 with
  | nil => intro gs2 teams asg k; rfl
  | cons g gs ih =>
    intro gs2 teams asg k
    rw [List.cons_append, Single.sibling_groups_loop, Single.sibling_groups_loop]
    cases hgp : Single.group_players players asg g with
    | nil => exact ih gs2 teams asg k
    | cons p0 r0 =>
      cases hfb : Single.find_best_team_for_player p0 teams (rand k) with
      | none => dsimp only; rw [hfb]
      | some i => dsimp only; rw [hfb]; exact ih gs2 _ _ _

theorem sibling_loop_mono (players : List Player) (rand : ℕ → ℕ) :
    ∀ (gs : List (List String)) (teams : List Team) (asg : List String) (k : ℕ),
      teams ≠ [] →
      ∃ out, Single.sibling_groups_loop players rand gs teams asg k = some out ∧
        out.1.length = teams.length ∧
        (∀ x ∈ asg, x ∈ out.2.1) ∧
        (∀ j tj, teams.get? j = some tj →
          ∃ tj' l, out.1.get? j = some tj' ∧ tj'.players = tj.players ++ l) := by
  intro gs
  induction gs with
  | nil =>
    intro teams asg k _
    exact ⟨(teams, asg, k), rfl, rfl, fun x hx => hx,
      fun j tj hj => ⟨tj, [], hj, by simp⟩⟩
  | cons g gs ih =>
    intro teams asg k hne
    rw [Single.sibling_groups_loop]
    cases hgp : Single.group_players players asg g with
    | nil => exact ih teams asg k hne
    | cons p0 r0 =>
      obtain ⟨i, hfb, hilt⟩ := single_selector_some p0 teams (rand k) hne
      dsimp only
      rw [hfb]
      dsimp only
      obtain ⟨ti, hti⟩ := get?_of_lt hilt
      obtain ⟨hlen, hasg, ⟨ti', hti', hpl⟩, hothers⟩ :=
        add_group_spec (p0 :: r0) teams i asg ti hti
      have hne2 : (Single.add_group_to_team (p0 :: r0) teams i asg).1 ≠ [] := by
        intro hc
        rw [hc] at hlen
        exact hne (List.length_eq_zero.mp hlen.symm)
      obtain ⟨out, hout, holen, hoasg, hopos⟩ :=
        ih (Single.add_group_to_team (p0 :: r0) teams i asg).1
          (Single.add_group_to_team (p0 :: r0) teams i asg).2 (k + 1) hne2
      refine ⟨out, hout, holen.trans hlen, ?_, ?_⟩
      · intro x hx
        apply hoasg
        rw [hasg]
        exact List.mem_append_left _ hx
      · intro j tj hj
        by_cases hji : j = i
        · subst hji
          rw [hj] at hti
          cases hti
          obtain ⟨tj2, l2, h1, h2⟩ := hopos j ti' hti'
          exact ⟨tj2, (p0 :: r0) ++ l2, h1, by rw [h2, hpl, List.append_assoc]⟩
        · obtain ⟨tj2, l2, h1, h2⟩ := hopos j tj (hothers j tj hji hj)
          exact ⟨tj2, l2, h1, h2⟩

theorem sibling_loop_pre (players : List Player) (rand : ℕ → ℕ) (S : List String) :
    ∀ (gs : List (List String)) (teams : List Team) (asg : List String) (k : ℕ),
      teams ≠ [] →
      (∀ g ∈ gs, ∀ pid ∈ g, pid ∉ S) →
      ∃ out, Single.sibling_groups_loop players rand gs teams asg k = some out ∧
        out.1.length = teams.length ∧ out.1 ≠ [] ∧
        (∀ x ∈ S, (x ∈ out.2.1 ↔ x ∈ asg)) := by
  intro gs
  induction gs with
  | nil =>
    intro teams asg k hne _
    exact ⟨(teams, asg, k), rfl, rfl, hne, fun x _ => Iff.rfl⟩
  | cons g gs ih =>
    intro teams asg k hne hdisj
    rw [Single.sibling_groups_loop]
    cases hgp : Single.group_players players asg g with
    | nil =>
      exact ih teams asg k hne (fun g' hg' => hdisj g' (List.mem_cons_of_mem _ hg'))
    | cons p0 r0 =>
      obtain ⟨i, hfb, hilt⟩ := single_selector_some p0 teams (rand k) hne
      dsimp only
      rw [hfb]
      dsimp only
      obtain ⟨ti, hti⟩ := get?_of_lt hilt
      obtain ⟨hlen, hasg, _, _⟩ := add_group_spec (p0 :: r0) teams i asg ti hti
      have hne2 : (Single.add_group_to_team (p0 :: r0) teams i asg).1 ≠ [] := by
        intro hc
        rw [hc] at hlen
        exact hne (List.length_eq_zero.mp hlen.symm)
      obtain ⟨out, hout, holen, hone, hoiff⟩ :=
        ih (Single.add_group_to_team (p0 :: r0) teams i asg).1
          (Single.add_group_to_team (p0 :: r0) teams i asg).2 (k + 1) hne2
          (fun g' hg' => hdisj g' (List.mem_cons_of_mem _ hg'))
      refine ⟨out, hout, holen.trans hlen, hone, ?_⟩
      intro x hxS
      rw [hoiff x hxS, hasg, List.mem_append]
      constructor
      · rintro (hx | hx)
        · exact hx
        · exfalso
          obtain ⟨q, hq, hqid⟩ := List.mem_map.mp hx
          have hq2 := (group_players_mem_ids (hgp ▸ hq)).1
          rw [hqid] at hq2
          exact hdisj g (List.mem_cons_self _ _) x hq2 hxS
      · exact Or.inl

theorem exists_other {α : Type} :
    ∀ (l : List α), l.Nodup → 2 ≤ l.length → ∀ a ∈ l, ∃ b ∈ l, b ≠ a := by
  intro l hnd hlen a ha
  cases l with
  | nil => simp at hlen
  | cons x xs =>
    cases xs with
    | nil => simp at hlen
    | cons y ys =>
      by_cases hax : a = x
      · subst hax
        refine ⟨y, List.mem_cons_of_mem _ (List.mem_cons_self _ _), ?_⟩
        intro h
        apply (List.nodup_cons.mp hnd).1
        rw [← h]
        exact List.mem_cons_self _ _
      · exact ⟨x, List.mem_cons_self _ _, fun h => hax h.symm⟩

/-- C6: whenever a family group (the players sharing a given family key) has
two or more members and at least one of them is still unassigned, the
single-file sibling pass assign_sibling_groups_to_teams completes and places
every still-unassigned member of that group on one single team, marking each
assigned; the group's unassigned members are never split across two teams.
The hypotheses ask for at least one team, distinct player ids, and sibling
fields as parse_players_csv_reader computes them. -/
theorem c6_sibling_group_one_team
    (teams : List Team) (players : List Player) (assigned : List String)
    (rand : ℕ → ℕ) (k : ℕ) (key : Option String × Option String)
    (hne : teams ≠ [])
    (hnd : (players.map Player.player_id).Nodup)
    (hsib : ∀ p ∈ players, p.siblings = siblings_list players p)
    (hG : 2 ≤ (family_ids players key).length)
    (hU : ∃ p ∈ players, familyKey p = key ∧ p.player_id ∉ assigned) :
    ∃ ts asg2 k2 j tj,
      Single.assign_sibling_groups_to_teams teams players assigned rand k =
        some (ts, asg2, k2) ∧ ts.get? j = some tj ∧
      ∀ p ∈ players, familyKey p = key → p.player_id ∉ assigned →
        p ∈ tj.players ∧ p.player_id ∈ asg2 := by
  have hplnd : players.Nodup := List.Nodup.of_map _ hnd
  have hinj : ∀ a ∈ players, ∀ b ∈ players, a.player_id = b.player_id → a = b :=
    fun a ha b hb hab => List.inj_on_of_nodup_map hnd ha hb hab
  have hGnd : (players.filter (fun q => familyKey q = key)).Nodup :=
    hplnd.filter _
  have hGmem : ∀ q, q ∈ players.filter (fun q => familyKey q = key) ↔
      (q ∈ players ∧ familyKey q = key) := by
    intro q
    rw [List.mem_filter]
    simp
  have hGlen : 2 ≤ (players.filter (fun q => familyKey q = key)).length := by
    rw [family_ids, List.length_map] at hG
    exact hG
  have hidmem : ∀ q ∈ players, familyKey q = key →
      q.player_id ∈ family_ids players key := by
    intro q hq hk
    exact List.mem_map.mpr ⟨q, (hGmem q).mpr ⟨hq, hk⟩, rfl⟩
  have hF2 : ∀ q ∈ players, familyKey q = key → q.siblings ≠ [] := by
    intro q hq hk
    obtain ⟨q2, hq2, hq2ne⟩ := exists_other _ hGnd hGlen q ((hGmem q).mpr ⟨hq, hk⟩)
    have hq2p := (hGmem q2).mp hq2
    have hidne : q.player_id ≠ q2.player_id := by
      intro h
      exact hq2ne ((hinj q hq q2 hq2p.1 h).symm)
    have hmem : q2.player_id ∈ siblings_list players q :=
      (mem_siblings_list_iff players q q2 hnd hq hq2p.1).mpr
        ⟨by rw [hk, hq2p.2], hidne⟩
    rw [hsib q hq]
    exact List.ne_nil_of_mem hmem
  obtain ⟨hkeys, hsound, hcomplete, hnodups⟩ := family_groups_spec players hnd
  obtain ⟨p0, hp0, hp0key, hp0asg⟩ := hU
  obtain ⟨estar, hestar, hekey, hp0in⟩ := hcomplete p0 hp0 (hF2 p0 hp0 hp0key)
  rw [hp0key] at hekey
  have hF5 : ∀ pid, pid ∈ estar.2 ↔ pid ∈ family_ids players key := by
    intro pid
    constructor
    · intro h
      obtain ⟨q, hq, hqid, hqkey, _⟩ := hsound estar hestar pid h
      exact hqid ▸ hidmem q hq (by rw [hqkey, hekey])
    · intro h
      obtain ⟨q, hqf, hqid⟩ := List.mem_map.mp h
      have hqp := (hGmem q).mp hqf
      obtain ⟨e2, he2, hk2, hin2⟩ := hcomplete q hqp.1 (hF2 q hqp.1 hqp.2)
      have he2e : e2 = estar := groups_entry_unique _ hkeys e2 he2 estar hestar
        (by rw [hk2, hqp.2, hekey])
      rw [← hqid, ← he2e]
      exact hin2
  have hfidnd : (family_ids players key).Nodup := by
    rw [family_ids]
    exact List.Nodup.sublist ((List.filter_sublist players).map Player.player_id) hnd
  have hlen2 : 1 < estar.2.length := by
    have hsub : family_ids players key ⊆ estar.2 := fun pid hp => (hF5 pid).mpr hp
    have := (List.subperm_of_subset hfidnd hsub).length_le
    omega
  obtain ⟨l1, l2, hsplit⟩ := List.append_of_mem hestar
  have hkd : ∀ e1 ∈ l1, e1.1 ≠ estar.1 := by
    intro e1 he1 hc
    have h1 : ((l1 ++ estar :: l2).map Prod.fst).Nodup := by
      rw [← hsplit]; exact hkeys
    rw [List.map_append, List.map_cons] at h1
    exact (List.nodup_append.mp h1).2.2 (List.mem_map.mpr ⟨e1, he1, rfl⟩)
      (by rw [hc]; exact List.mem_cons_self _ _)
  have hdecomp : Single.sibling_groups players =
      ((l1.filter (fun g => 1 < g.2.length)).map Prod.snd) ++ estar.2 ::
        ((l2.filter (fun g => 1 < g.2.length)).map Prod.snd) := by
    rw [Single.sibling_groups, hsplit, List.filter_append,
      List.filter_cons_of_pos (by simpa using hlen2), List.map_append, List.map_cons]
  have hpre_disj : ∀ g ∈ (l1.filter (fun g => 1 < g.2.length)).map Prod.snd,
      ∀ pid ∈ g, pid ∉ family_ids players key := by
    intro g hg pid hpid hmem
    obtain ⟨e1, he1f, he1g⟩ := List.mem_map.mp hg
    have he1 : e1 ∈ l1 := List.mem_of_mem_filter he1f
    have he1fg : e1 ∈ Single.family_groups players := by
      rw [hsplit]; exact List.mem_append_left _ he1
    obtain ⟨q, hq, hqid, hqkey, _⟩ := hsound e1 he1fg pid (he1g ▸ hpid)
    obtain ⟨q2, hq2f, hq2id⟩ := List.mem_map.mp hmem
    have hq2p := (hGmem q2).mp hq2f
    have hqq2 : q = q2 := hinj q hq q2 hq2p.1 (by rw [hqid, hq2id])
    apply hkd e1 he1
    rw [← hqkey, hqq2, hq2p.2, hekey]
  obtain ⟨⟨ts1, asg1, k1⟩, hout1, hlen1, hne1, hiff1⟩ :=
    sibling_loop_pre players rand (family_ids players key)
      ((l1.filter (fun g => 1 < g.2.length)).map Prod.snd) teams assigned k
      hne hpre_disj
  have hM : ∀ p ∈ players, familyKey p = key → p.player_id ∉ assigned →
      p ∈ Single.group_players players asg1 estar.2 := by
    intro p hp hk hasg
    apply mem_group_players hnd hp
    · exact (hF5 p.player_id).mpr (hidmem p hp hk)
    · intro hc
      exact hasg ((hiff1 p.player_id (hidmem p hp hk)).mp hc)
  cases hgp : Single.group_players players asg1 estar.2 with
  | nil =>
    exact absurd (hgp ▸ hM p0 hp0 hp0key hp0asg) (List.not_mem_nil p0)
  | cons q0 qr =>
    obtain ⟨i, hfb, hilt⟩ := single_selector_some q0 ts1 (rand k1) hne1
    obtain ⟨ti, hti⟩ := get?_of_lt hilt
    obtain ⟨hlen2', hasg2, ⟨ti', hti', hpl2⟩, _⟩ :=
      add_group_spec (q0 :: qr) ts1 i asg1 ti hti
    have hne2 : (Single.add_group_to_team (q0 :: qr) ts1 i asg1).1 ≠ [] := by
      intro hc
      rw [hc] at hlen2'
      exact hne1 (List.length_eq_zero.mp hlen2'.symm)
    obtain ⟨⟨ts2, asg2, k2⟩, hout2, _, hoasg, hopos⟩ :=
      sibling_loop_mono players rand
        ((l2.filter (fun g => 1 < g.2.length)).map Prod.snd)
        (Single.add_group_to_team (q0 :: qr) ts1 i asg1).1
        (Single.add_group_to_team (q0 :: qr) ts1 i asg1).2 (k1 + 1) hne2
    obtain ⟨tjf, lf, hjf, hplf⟩ := hopos i ti' hti'
    have hrun : Single.assign_sibling_groups_to_teams teams players assigned rand k =
        some (ts2, asg2, k2) := by
      rw [Single.assign_sibling_groups_to_teams, hdecomp, sibling_loop_append, hout1]
      dsimp only
      rw [Single.sibling_groups_loop, hgp]
      dsimp only
      rw [hfb]
      exact hout2
    refine ⟨ts2, asg2, k2, i, tjf, hrun, hjf, ?_⟩
    intro p hp hk hasg
    have hpg : p ∈ q0 :: qr := hgp ▸ hM p hp hk hasg
    constructor
    · rw [hplf, hpl2]
      exact List.mem_append_left _ (List.mem_append_right _ hpg)
    · apply hoasg
      rw [hasg2]
      exact List.mem_append_right _ (List.mem_map.mpr ⟨p, hpg, rfl⟩)

/-- C6 witness: three unassigned siblings sharing one family key and one team;
the sibling pass completes and all three land on that team, all marked
assigned. -/
theorem c6_witness :
    ∃ ts asg2 k2 j tj,
      Single.assign_sibling_groups_to_teams [teamC1] [c6Sib1, c6Sib2, c6Sib3] []
        (fun _ => 0) 0 = some (ts, asg2, k2) ∧ ts.get? j = some tj ∧
      ∀ p ∈ [c6Sib1, c6Sib2, c6Sib3],
        familyKey p = (some "Jones", some "5 Elm") →
        p.player_id ∉ ([] : List String) →
          p ∈ tj.players ∧ p.player_id ∈ asg2 :=
  c6_sibling_group_one_team [teamC1] [c6Sib1, c6Sib2, c6Sib3] [] (fun _ => 0) 0
    (some "Jones", some "5 Elm") (by decide) (by decide) (by decide) (by decide)
    (by decide)

/-- C6 counterexample: the claim also asserts the family-grouping pass is part
of the fixed assignment pipeline, citing the package assign_players_to_teams;
but the package pipeline has no such pass, and a run of it splits a two-member
sibling group across the two teams. -/
theorem c6_counterexample :
    c6SibB.player_id ∈ c6SibA.siblings ∧ c6SibA.player_id ∈ c6SibB.siblings ∧
    familyKey c6SibA = familyKey c6SibB ∧
    ∃ res, TB.assign_players_to_teams [teamC1, teamC2]
        [c6SibA, c6SibB, c6FillX, c6FillY] 2 c6rand = some res ∧
      ∃ ta tb, res.get? 0 = some ta ∧ res.get? 1 = some tb ∧
        c6SibA ∈ ta.players ∧ c6SibB ∈ tb.players ∧ c6SibB ∉ ta.players := by
  refine ⟨by decide, by decide, by decide, ?_⟩
  refine ⟨_, rfl, ?_⟩
  refine ⟨_, _, rfl, rfl, by decide, by decide, by decide⟩
